import Mathlib

/-!
Verification of the FileWatcher module (openhands/intent/watch.py).

The development is a shallow embedding of the watcher:

* the diff generator (FileWatcher._generate_diff) is embedded together with
  the behaviour of the Python standard library functions it calls
  (difflib.unified_diff over difflib.SequenceMatcher with isjunk=None and
  autojunk=True, and str.splitlines(keepends=True)), working over lines
  represented as List Char;
* the event handlers (on_created, on_modified, on_deleted, on_moved,
  _handle_debounced_change, _handle_delayed_delete, _schedule_debounced_change,
  stop) are embedded as functions on an explicit watcher state; threading.Timer
  tasks are modelled as a queue of scheduled tasks with integer (millisecond) fire times, and
  a deterministic driver fires every due task (in schedule order) before each
  raw event is delivered;
* the external collaborators excluded by the design (pathspec gitignore
  matching, pathlib glob matching, os.path.relpath) are abstracted as pure
  functions carried in the configuration, exactly as the design treats them;
  the filesystem is a state component carrying the result of reading a file
  (read failures already collapsed to "", as in _read_file_content) and the
  os.path.isdir predicate consulted by _should_ignore.

Time is modelled by integers, in milliseconds; the debounce delay and the
rename window are both 100 ms (0.1 seconds in the source).
-/

namespace Watch

/-! ## Generic list helpers: slices and association lists -/

/-- Python-style slice l[i:j] (clamping, empty when j ≤ i). -/
def slice (l : List α) (i j : ℕ) : List α :=
  (l.drop i).take (j - i)

/-- Lookup in an association list keyed by strings (Python dict get). -/
def lookupA (l : List (String × α)) (k : String) : Option α :=
  match l with
  | [] => none
  | (k0, v) :: rest => if k0 = k then some v else lookupA rest k

/-- Python dict assignment d[k] = v: update in place if present, else append
(Python dicts preserve insertion order). -/
def updA (l : List (String × α)) (k : String) (v : α) : List (String × α) :=
  match l with
  | [] => [(k, v)]
  | (k0, v0) :: rest => if k0 = k then (k0, v) :: rest else (k0, v0) :: updA rest k v

/-- Python dict deletion d.pop(k): remove the entry with key k (if any). -/
def eraseA (l : List (String × α)) (k : String) : List (String × α) :=
  match l with
  | [] => []
  | (k0, v0) :: rest => if k0 = k then rest else (k0, v0) :: eraseA rest k

/-- Python set.add for a list used as a set (append if absent). -/
def addS (l : List String) (k : String) : List String :=
  if l.contains k then l else l ++ [k]

/-- Python set.remove / set.discard (remove the element if present). -/
def delS (l : List String) (k : String) : List String :=
  l.filter (fun x => !(x = k : Bool))

/-- Split a character list on a separator character; mirrors Python
str.split(sep) for a one-character separator: "".split(sep) is [""]. -/
def splitOnCharList (sep : Char) : List Char → List (List Char)
  | [] => [[]]
  | c :: cs =>
    match splitOnCharList sep cs with
    | [] => if c = sep then [[], []] else [[c]]
    | h :: t => if c = sep then [] :: h :: t else (c :: h) :: t

/-- Python str.split('/') on a string, as a list of strings. -/
def splitSlash (s : String) : List String :=
  (splitOnCharList '/' s.data).map String.mk

/-- Python str.endswith for strings. -/
def strEndsWith (s suffix : String) : Bool :=
  suffix.data.isSuffixOf s.data

/-- Python str.startswith for strings. -/
def strStartsWith (s pre : String) : Bool :=
  pre.data.isPrefixOf s.data

/-- os.path.basename: the part of the path after the last '/'. -/
def basename (p : String) : String :=
  (splitSlash p).getLastD ""

/-! ## The watcher data model

Mirrors the per-instance tables of FileWatcher.__init__:
file_contents, pending_changes, debounce_timers, recent_deletes, plus the
emitted-observation log (the event stream) and the scheduled-task queue
(the threading.Timer instances created by _schedule_debounced_change and
on_deleted). -/

/-- The debounce delay (self.debounce_delay = 0.1 seconds), in milliseconds. -/
def debounceDelay : ℤ := 100

/-- The rename window (self.rename_window = 0.1 seconds), in milliseconds. -/
def renameWindow : ℤ := 100

/-- The filesystem as the watcher sees it: read gives the text content of a
path with read failures already collapsed to "" (the behaviour of
_read_file_content), and isDir is os.path.isdir. -/
structure FS where
  read : String → String
  isDir : String → Bool

/-- Static configuration of a watcher instance. The pattern-matching
collaborators are abstracted as pure boolean predicates, as the design
prescribes: pathMatch rel pat is pathlib.Path(rel).match(pat), and
gitignoreMatch rel is gitignore_spec.match_file(rel) for the pattern set
loaded at construction. relPath is os.path.relpath(path, directory) with
os.sep already normalised to '/'. -/
structure Config where
  patterns : Option (List String)
  ignorePatterns : List String
  pathMatch : String → String → Bool
  gitignoreMatch : String → Bool
  relPath : String → String

/-- A FileEditObservation as emitted to the event stream. -/
structure Observation where
  path : String
  prevExist : Bool
  oldContent : String
  newContent : String
  content : String
deriving DecidableEq

/-- A scheduled timer callback: a debounced-change task
(_handle_debounced_change, stored in debounce_timers) or a delayed-delete
task (_handle_delayed_delete, fire-and-forget, not stored anywhere). -/
inductive Task where
  | debounce (path : String)
  | delayedDelete (path : String) (oldContent : String)
deriving DecidableEq

/-- True exactly on delayed-delete (rename finalization) tasks. -/
def Task.isDelayedDelete : Task → Bool
  | .debounce _ => false
  | .delayedDelete _ _ => true

/-- A live (started, not cancelled, not yet fired) threading.Timer. -/
structure QEntry where
  tid : ℕ
  fireAt : ℤ
  task : Task
deriving DecidableEq

/-- The mutable state of one watcher instance, together with the filesystem
and the log of emitted observations. -/
structure State where
  fileContents : List (String × String)
  pendingChanges : List String
  debounceTimers : List (String × ℕ)
  recentDeletes : List (String × (String × ℤ))
  queue : List QEntry
  nextId : ℕ
  emitted : List Observation
  fs : FS
  stopped : Bool
  useDebouncing : Bool

/-- Append one observation to the event stream
(event_stream.add_event(observation, EventSource.USER)). -/
def emit (s : State) (o : Observation) : State :=
  { s with emitted := s.emitted ++ [o] }

/-! ## IgnorePolicy: _should_ignore and _should_watch -/

/-- FileWatcher._should_ignore. Note the os.path.isdir(path) call: for
directories the gitignore pattern set is consulted both with and without a
trailing slash, so the result depends on the filesystem through fs.isDir. -/
def shouldIgnore (cfg : Config) (fs : FS) (path : String) : Bool :=
  let rel := cfg.relPath path
  let parts := splitSlash rel
  if parts.contains (".git") then true
  else if cfg.ignorePatterns.any (fun pat => cfg.pathMatch rel pat) then true
  else if fs.isDir path then cfg.gitignoreMatch rel || cfg.gitignoreMatch (rel ++ ("/"))
  else cfg.gitignoreMatch rel

/-- FileWatcher._should_watch: no include patterns means watch everything;
otherwise at least one include glob must match. Reads nothing but the
configuration and the path. -/
def shouldWatch (cfg : Config) (path : String) : Bool :=
  match cfg.patterns with
  | none => true
  | some pats => pats.any (fun pat => cfg.pathMatch (cfg.relPath path) pat)

/-- The transient-artifact filter repeated at the top of every handler:
editor swap/backup suffixes, and the neovim temp-file prefix 4913 on the
file name. -/
def isTransient (p : String) : Bool :=
  strEndsWith p (".swp") || strEndsWith p (".swo") || strEndsWith p ("~") ||
    strStartsWith (basename p) ("4913")

end Watch

namespace Watch

/-! ## DiffGenerator: _generate_diff and the difflib behaviour it relies on

FileWatcher._generate_diff calls difflib.unified_diff(old_lines, new_lines,
fromfile=path, tofile=path, n=0, lineterm=''), with lines produced by
str.splitlines(keepends=True). The embedding below follows CPython's difflib
(SequenceMatcher constructed with isjunk=None, so the junk set is empty and
the junk-extension loops of find_longest_match are identity; autojunk is left
at its default True). Lines are List Char. -/

/-- The line-boundary characters recognised by Python str.splitlines. -/
def isLineBreakChar (c : Char) : Bool :=
  c == '\n' || c == '\r' || c == '\x0b' || c == '\x0c' || c == '\x1c' ||
    c == '\x1d' || c == '\x1e' || c == '\x85' || c == ' ' || c == ' '

/-- Python str.splitlines(keepends=True) on a character list; '\r\n' counts
as a single line ending, and a trailing fragment without a terminator is its
own line. -/
def splitLinesAux : List Char → List Char → List (List Char)
  | acc, [] => if acc.isEmpty then [] else [acc.reverse]
  | acc, '\r' :: '\n' :: cs => (acc.reverse ++ ['\r', '\n']) :: splitLinesAux [] cs
  | acc, c :: cs =>
    if isLineBreakChar c then (acc.reverse ++ [c]) :: splitLinesAux [] cs
    else splitLinesAux (c :: acc) cs

/-- str.splitlines(keepends=True). -/
def splitLinesKeepEnds (cs : List Char) : List (List Char) :=
  splitLinesAux [] cs

/-- SequenceMatcher.__chain_b: b2j maps a line to the ascending list of its
indices in b, except that when len(b) >= 200 an element occurring more than
len(b)//100 + 1 times is popular and is dropped from the map (autojunk).
The junk set is empty since unified_diff passes isjunk=None. -/
def b2j (b : List (List Char)) (x : List Char) : List ℕ :=
  let idxs := (List.range b.length).filter (fun j => b.getD j [] = x)
  if 200 ≤ b.length ∧ b.length / 100 + 1 < idxs.length then [] else idxs

/-- The running best match of find_longest_match. -/
structure FlmBest where
  besti : ℕ
  bestj : ℕ
  bestsize : ℕ
deriving DecidableEq

/-- State of the inner loop of find_longest_match: the fresh newj2len dict
(total function, 0 for absent keys, matching dict.get(j-1, 0)) and the best
triple so far. -/
structure InnerSt where
  newj2len : ℕ → ℕ
  best : FlmBest

/-- Inner loop of find_longest_match over b2j[a[i]]: skip j < blo (continue),
stop at the first j >= bhi (break, the index list is ascending), otherwise
k = j2len.get(j-1, 0) + 1 extends the match diagonal and the best triple is
updated when k exceeds it. -/
def flmInner (blo bhi i : ℕ) (j2len : ℕ → ℕ) : List ℕ → InnerSt → InnerSt
  | [], st => st
  | j :: js, st =>
    if j < blo then flmInner blo bhi i j2len js st
    else if bhi ≤ j then st
    else
      let k := (if j = 0 then 0 else j2len (j - 1)) + 1
      let nj := fun x => if x = j then k else st.newj2len x
      let best := if st.best.bestsize < k then ⟨i + 1 - k, j + 1 - k, k⟩ else st.best
      flmInner blo bhi i j2len js ⟨nj, best⟩

/-- Outer loop of find_longest_match over i in range(alo, ahi), threading
j2len from one row to the next (newj2len starts empty each row). -/
def flmLoop (a : List (List Char)) (b2jf : List Char → List ℕ) (blo bhi : ℕ) :
    List ℕ → ((ℕ → ℕ) × FlmBest) → ((ℕ → ℕ) × FlmBest)
  | [], st => st
  | i :: is, (j2len, best) =>
    let st := flmInner blo bhi i j2len (b2jf (a.getD i [])) ⟨fun _ => 0, best⟩
    flmLoop a b2jf blo bhi is (st.newj2len, st.best)

/-- The backward extension loop of find_longest_match ("extend the best by
non-junk elements on each end"; the junk set is empty). Fuel starts at besti,
which bounds the number of decrements. -/
def extendBackLoop (a b : List (List Char)) (alo blo : ℕ) : ℕ → FlmBest → FlmBest
  | 0, st => st
  | fuel + 1, st =>
    if alo < st.besti ∧ blo < st.bestj ∧
        a.getD (st.besti - 1) [] = b.getD (st.bestj - 1) [] then
      extendBackLoop a b alo blo fuel ⟨st.besti - 1, st.bestj - 1, st.bestsize + 1⟩
    else st

/-- The forward extension loop of find_longest_match. Fuel starts at ahi,
which bounds the number of increments. -/
def extendFwdLoop (a b : List (List Char)) (ahi bhi : ℕ) : ℕ → FlmBest → FlmBest
  | 0, st => st
  | fuel + 1, st =>
    if st.besti + st.bestsize < ahi ∧ st.bestj + st.bestsize < bhi ∧
        a.getD (st.besti + st.bestsize) [] = b.getD (st.bestj + st.bestsize) [] then
      extendFwdLoop a b ahi bhi fuel ⟨st.besti, st.bestj, st.bestsize + 1⟩
    else st

/-- SequenceMatcher.find_longest_match(alo, ahi, blo, bhi). -/
def findLongestMatch (a b : List (List Char)) (alo ahi blo bhi : ℕ) : FlmBest :=
  let st := flmLoop a (b2j b) blo bhi (List.range' alo (ahi - alo)) (fun _ => 0, ⟨alo, blo, 0⟩)
  let best := extendBackLoop a b alo blo st.2.besti st.2
  extendFwdLoop a b ahi bhi ahi best

/-- SequenceMatcher.get_matching_blocks, recursion part. The Python version
drives an explicit queue and sorts the collected blocks afterwards; since all
blocks found in the left subproblem lie strictly left of the current match
and all blocks of the right subproblem strictly right of it, in-order
recursion produces exactly the sorted list. The fuel argument dominates the
recursion depth: each recursive call strictly shrinks ahi - alo. -/
def matchingBlocksFuel (a b : List (List Char)) :
    ℕ → ℕ → ℕ → ℕ → ℕ → List (ℕ × ℕ × ℕ)
  | 0, _, _, _, _ => []
  | fuel + 1, alo, ahi, blo, bhi =>
    let m := findLongestMatch a b alo ahi blo bhi
    if m.bestsize = 0 then []
    else
      (if alo < m.besti ∧ blo < m.bestj then
        matchingBlocksFuel a b fuel alo m.besti blo m.bestj
      else []) ++
      [(m.besti, m.bestj, m.bestsize)] ++
      (if m.besti + m.bestsize < ahi ∧ m.bestj + m.bestsize < bhi then
        matchingBlocksFuel a b fuel (m.besti + m.bestsize) ahi (m.bestj + m.bestsize) bhi
      else [])

/-- The second loop of get_matching_blocks: collapse adjacent blocks. The
accumulator starts at (0, 0, 0) and a pending block is flushed only when
nonempty (k1 nonzero). -/
def mergeLoop : (ℕ × ℕ × ℕ) → List (ℕ × ℕ × ℕ) → List (ℕ × ℕ × ℕ)
  | (i1, j1, k1), [] => if k1 ≠ 0 then [(i1, j1, k1)] else []
  | (i1, j1, k1), (i2, j2, k2) :: rest =>
    if i1 + k1 = i2 ∧ j1 + k1 = j2 then mergeLoop (i1, j1, k1 + k2) rest
    else if k1 ≠ 0 then (i1, j1, k1) :: mergeLoop (i2, j2, k2) rest
    else mergeLoop (i2, j2, k2) rest

/-- SequenceMatcher.get_matching_blocks: recursion, adjacency merge, and the
terminating sentinel (len(a), len(b), 0). -/
def getMatchingBlocks (a b : List (List Char)) : List (ℕ × ℕ × ℕ) :=
  mergeLoop (0, 0, 0)
      (matchingBlocksFuel a b (a.length + b.length + 1) 0 a.length 0 b.length) ++
    [(a.length, b.length, 0)]

/-- Opcode tags of SequenceMatcher.get_opcodes. -/
inductive Tag where
  | replace
  | delete
  | insert
  | equal
deriving DecidableEq

/-- One opcode (tag, i1, i2, j1, j2). -/
structure Opcode where
  tag : Tag
  i1 : ℕ
  i2 : ℕ
  j1 : ℕ
  j2 : ℕ
deriving DecidableEq

/-- Placeholder opcode for headD/getLastD on lists known to be nonempty. -/
def dummyOp : Opcode := ⟨.equal, 0, 0, 0, 0⟩

/-- SequenceMatcher.get_opcodes: walk the matching blocks, emitting a gap
opcode (replace/delete/insert) for the unmatched span before each block and
an equal opcode for the block itself when its size is nonzero. -/
def opcodesLoop : ℕ → ℕ → List (ℕ × ℕ × ℕ) → List Opcode
  | _, _, [] => []
  | i, j, (ai, bj, size) :: rest =>
    (if i < ai ∧ j < bj then [⟨.replace, i, ai, j, bj⟩]
     else if i < ai then [⟨.delete, i, ai, j, bj⟩]
     else if j < bj then [⟨.insert, i, ai, j, bj⟩]
     else []) ++
    (if size ≠ 0 then [⟨.equal, ai, ai + size, bj, bj + size⟩] else []) ++
    opcodesLoop (ai + size) (bj + size) rest

/-- SequenceMatcher.get_opcodes. -/
def getOpcodes (a b : List (List Char)) : List Opcode :=
  opcodesLoop 0 0 (getMatchingBlocks a b)

/-- get_grouped_opcodes: shrink a leading equal opcode to its last n lines. -/
def truncFirst (n : ℕ) : List Opcode → List Opcode
  | [] => []
  | c :: rest =>
    (if c.tag = .equal then ⟨.equal, max c.i1 (c.i2 - n), c.i2, max c.j1 (c.j2 - n), c.j2⟩
     else c) :: rest

/-- get_grouped_opcodes: shrink a trailing equal opcode to its first n lines. -/
def truncLast (n : ℕ) (codes : List Opcode) : List Opcode :=
  match codes.getLast? with
  | none => []
  | some c =>
    codes.dropLast ++
      [if c.tag = .equal then ⟨.equal, c.i1, min c.i2 (c.i1 + n), c.j1, min c.j2 (c.j1 + n)⟩
       else c]

/-- The grouping loop of get_grouped_opcodes: an equal opcode wider than 2n
lines ends the current group (with an n-line tail marker) and begins the next
one (with an n-line head marker); the final group is yielded unless it is
empty or a single equal opcode. -/
def groupLoop (n : ℕ) (group : List Opcode) : List Opcode → List (List Opcode)
  | [] =>
    if group ≠ [] ∧ ¬(group.length = 1 ∧ (group.headD dummyOp).tag = .equal) then [group]
    else []
  | c :: rest =>
    if c.tag = .equal ∧ n + n < c.i2 - c.i1 then
      (group ++ [⟨.equal, c.i1, min c.i2 (c.i1 + n), c.j1, min c.j2 (c.j1 + n)⟩]) ::
        groupLoop n [⟨.equal, max c.i1 (c.i2 - n), c.i2, max c.j1 (c.j2 - n), c.j2⟩] rest
    else groupLoop n (group ++ [c]) rest

/-- SequenceMatcher.get_grouped_opcodes(n): when there are no opcodes a
single artificial equal opcode (0,1,0,1) is used. -/
def getGroupedOpcodes (n : ℕ) (a b : List (List Char)) : List (List Opcode) :=
  let codes := getOpcodes a b
  let codes := if codes = [] then [⟨.equal, 0, 1, 0, 1⟩] else codes
  groupLoop n [] (truncLast n (truncFirst n codes))

/-- difflib._format_range_unified: one-line ranges print as "start+1", empty
ranges decrement the start before printing "start,length" (so an empty range
at start prints "start,0"), and other ranges print "start+1,length". -/
def formatRangeUnified (start stop : ℕ) : List Char :=
  let length := stop - start
  if length = 1 then Nat.toDigits 10 (start + 1)
  else if length = 0 then Nat.toDigits 10 start ++ [','] ++ Nat.toDigits 10 length
  else Nat.toDigits 10 (start + 1) ++ [','] ++ Nat.toDigits 10 length

/-- The tagged content lines a group contributes to the diff: context lines
for equal opcodes, '-' lines from a for replace/delete, '+' lines from b for
replace/insert. -/
def tagLines (a b : List (List Char)) (c : Opcode) : List (List Char) :=
  match c.tag with
  | .equal => (slice a c.i1 c.i2).map (fun l => ' ' :: l)
  | .replace =>
    (slice a c.i1 c.i2).map (fun l => '-' :: l) ++ (slice b c.j1 c.j2).map (fun l => '+' :: l)
  | .delete => (slice a c.i1 c.i2).map (fun l => '-' :: l)
  | .insert => (slice b c.j1 c.j2).map (fun l => '+' :: l)

/-- The "@@ -r1 +r2 @@" hunk header of a group (lineterm is ''). -/
def hunkHeader (g : List Opcode) : List Char :=
  let first := g.headD dummyOp
  let last := g.getLastD dummyOp
  ('@' :: '@' :: ' ' :: '-' :: formatRangeUnified first.i1 last.i2) ++
    (' ' :: '+' :: formatRangeUnified first.j1 last.j2) ++ [' ', '@', '@']

/-- difflib.unified_diff(a, b, fromfile, tofile, n, lineterm='') as the list
of yielded lines: the two header lines appear once if there is at least one
group, then each group contributes its hunk header and tagged lines. -/
def unifiedDiff (a b : List (List Char)) (fromfile tofile : List Char) (n : ℕ) :
    List (List Char) :=
  let groups := getGroupedOpcodes n a b
  if groups = [] then []
  else
    ('-' :: '-' :: '-' :: ' ' :: fromfile) :: ('+' :: '+' :: '+' :: ' ' :: tofile) ::
      (groups.map (fun g => hunkHeader g :: (g.map (tagLines a b)).join)).join

/-- FileWatcher._generate_diff: unified diff with n=0 and lineterm='', then
drop the two file-header lines (when there are more than two lines) and every
"@@" hunk-offset line, and join what is left. -/
def generateDiff (oldContent newContent path : String) : String :=
  let oldLines := splitLinesKeepEnds oldContent.data
  let newLines := splitLinesKeepEnds newContent.data
  let diffLines := unifiedDiff oldLines newLines path.data path.data 0
  let body :=
    if 2 < diffLines.length then
      (diffLines.drop 2).filter (fun l => !(List.isPrefixOf ['@', '@'] l))
    else diffLines
  String.mk body.join

/-! ## Patch data recoverable from the unstripped diff

A hunk of the printed diff records the old-file range [lo, hi) on its "@@"
line (formatRangeUnified first.i1 last.i2) and its '+' content lines, which
are exactly the b-slices of its replace/insert opcodes. applyHunks is the
standard patch application: copy the old lines up to each hunk's start, emit
the hunk's '+' lines in place of old lines [lo, hi), and copy the remainder. -/

/-- The added ('+') lines an opcode contributes to its hunk. -/
def plusLinesOf (b : List (List Char)) (c : Opcode) : List (List Char) :=
  if c.tag = .replace ∨ c.tag = .insert then slice b c.j1 c.j2 else []

/-- The patch data of one printed hunk. -/
structure Hunk where
  lo : ℕ
  hi : ℕ
  plus : List (List Char)

/-- The hunk data recorded in the diff for one opcode group. -/
def hunkOfGroup (b : List (List Char)) (g : List Opcode) : Hunk :=
  ⟨(g.headD dummyOp).i1, (g.getLastD dummyOp).i2, (g.map (plusLinesOf b)).join⟩

/-- All hunks of the zero-context diff of a against b. -/
def extractHunks (a b : List (List Char)) (n : ℕ) : List Hunk :=
  (getGroupedOpcodes n a b).map (hunkOfGroup b)

/-- Apply hunks to the old line list a, starting from position pos. -/
def applyHunks (a : List (List Char)) : ℕ → List Hunk → List (List Char)
  | pos, [] => a.drop pos
  | pos, h :: hs => slice a pos h.lo ++ h.plus ++ applyHunks a h.hi hs

end Watch

namespace Watch

/-! ## The event handlers

Each handler mirrors its Python counterpart statement for statement. A
threading.Timer that is started is a queue entry with a fresh id and fire time
now + delay; Timer.cancel() removes the entry from the queue (a cancelled
timer never runs its callback). -/

/-- FileWatcher._handle_debounced_change(path), run when a debounce timer
fires: bail out if the path is no longer pending, then clear the pending mark
and the timer handle, re-check the filters and the transient-artifact filter,
and commit: read the current content, compare with the cache, and emit (with
prev_exist=True) and update the cache only when the content changed. -/
def handleDebouncedChange (cfg : Config) (p : String) (s : State) : State :=
  if !(s.pendingChanges.contains p) then s
  else
    let s := { s with pendingChanges := delS s.pendingChanges p,
                      debounceTimers := eraseA s.debounceTimers p }
    if shouldIgnore cfg s.fs p || !(shouldWatch cfg p) then s
    else if isTransient p then s
    else
      let rel := cfg.relPath p
      let oldContent := (lookupA s.fileContents p).getD ""
      let newContent := s.fs.read p
      if oldContent ≠ newContent then
        emit { s with fileContents := updA s.fileContents p newContent }
          ⟨rel, true, oldContent, newContent, generateDiff oldContent newContent rel⟩
      else s

/-- FileWatcher._schedule_debounced_change(path): cancel the existing timer
for the path if any, start a new timer at now + debounce_delay, record its
handle, and mark the path pending. -/
def scheduleDebouncedChange (now : ℤ) (p : String) (s : State) : State :=
  let s :=
    match lookupA s.debounceTimers p with
    | some tid => { s with queue := s.queue.filter (fun e => !(e.tid = tid : Bool)) }
    | none => s
  { s with queue := s.queue ++ [⟨s.nextId, now + debounceDelay, .debounce p⟩],
           debounceTimers := updA s.debounceTimers p s.nextId,
           pendingChanges := addS s.pendingChanges p,
           nextId := s.nextId + 1 }

/-- The rename scan of FileWatcher.on_created: walk recent_deletes in
insertion order; for an entry within the rename window, read the created
file; on content equality record the content under the new path, consume the
entry and return (no observation for either path). Returns the new state if
the loop returned, none if it fell through. -/
def scanRenames (now : ℤ) (p : String) (s : State) :
    List (String × (String × ℤ)) → Option State
  | [] => none
  | (oldPath, (oldContent, ts)) :: rest =>
    if now - ts ≤ renameWindow then
      let newContent := s.fs.read p
      if newContent = oldContent then
        some { s with fileContents := updA s.fileContents p newContent,
                      recentDeletes := eraseA s.recentDeletes oldPath }
      else scanRenames now p s rest
    else scanRenames now p s rest

/-- FileWatcher.on_created: drop directory events and transient artifacts,
apply the filters, try the rename scan, then either schedule a debounced
change or (non-debounced mode) read, cache and emit an all-additions creation
observation with prev_exist=False — unconditionally, even when the content
read back is empty. -/
def onCreated (cfg : Config) (now : ℤ) (p : String) (isDir : Bool) (s : State) : State :=
  if isDir then s
  else if isTransient p then s
  else if shouldIgnore cfg s.fs p || !(shouldWatch cfg p) then s
  else
    let rel := cfg.relPath p
    match scanRenames now p s s.recentDeletes with
    | some s1 => s1
    | none =>
      if s.useDebouncing then scheduleDebouncedChange now p s
      else
        let newContent := s.fs.read p
        emit { s with fileContents := updA s.fileContents p newContent }
          ⟨rel, false, "", newContent, generateDiff "" newContent rel⟩

/-- FileWatcher.on_modified: drop directory events and transient artifacts,
apply the filters, then either schedule a debounced change or (non-debounced
mode) commit inline, emitting only when the content changed. -/
def onModified (cfg : Config) (now : ℤ) (p : String) (isDir : Bool) (s : State) : State :=
  if isDir then s
  else if isTransient p then s
  else if shouldIgnore cfg s.fs p || !(shouldWatch cfg p) then s
  else if s.useDebouncing then scheduleDebouncedChange now p s
  else
    let rel := cfg.relPath p
    let oldContent := (lookupA s.fileContents p).getD ""
    let newContent := s.fs.read p
    if oldContent ≠ newContent then
      emit { s with fileContents := updA s.fileContents p newContent }
        ⟨rel, true, oldContent, newContent, generateDiff oldContent newContent rel⟩
    else s

/-- The pending-change cancellation block shared by on_deleted and on_moved:
if the path has a debounce timer, cancel it, drop its handle, and discard the
pending mark. -/
def cancelPending (s : State) (p : String) : State :=
  match lookupA s.debounceTimers p with
  | some tid =>
    { s with queue := s.queue.filter (fun e => !(e.tid = tid : Bool)),
             debounceTimers := eraseA s.debounceTimers p,
             pendingChanges := delS s.pendingChanges p }
  | none => s

/-- FileWatcher.on_deleted: drop directory events and transient artifacts,
cancel any pending debounced change, apply the filters, capture and drop the
cached content, then either record a recent-delete entry and start a
fire-and-forget delayed-delete timer (debounced mode — the timer handle is
kept nowhere, in particular not in debounce_timers), or emit the deletion
observation immediately. -/
def onDeleted (cfg : Config) (now : ℤ) (p : String) (isDir : Bool) (s : State) : State :=
  if isDir then s
  else if isTransient p then s
  else
    let s := cancelPending s p
    if shouldIgnore cfg s.fs p || !(shouldWatch cfg p) then s
    else
      let oldContent := (lookupA s.fileContents p).getD ""
      let s := { s with fileContents := eraseA s.fileContents p }
      if s.useDebouncing then
        { s with recentDeletes := updA s.recentDeletes p (oldContent, now),
                 queue := s.queue ++ [⟨s.nextId, now + renameWindow, .delayedDelete p oldContent⟩],
                 nextId := s.nextId + 1 }
      else
        let rel := cfg.relPath p
        emit s ⟨rel, true, oldContent, "", generateDiff oldContent "" rel⟩

/-- FileWatcher._handle_delayed_delete(path, old_content), run when a
delayed-delete timer fires: if the recent-delete entry is still present (not
consumed by a rename), emit the deletion observation — unconditionally, even
when the captured content is empty — and remove the entry. -/
def handleDelayedDelete (cfg : Config) (p : String) (oldContent : String) (s : State) : State :=
  match lookupA s.recentDeletes p with
  | some _ =>
    let rel := cfg.relPath p
    let s := emit s ⟨rel, true, oldContent, "", generateDiff oldContent "" rel⟩
    { s with recentDeletes := eraseA s.recentDeletes p }
  | none => s

/-- FileWatcher.on_moved: drop directory events; cancel any pending debounced
change for the source path BEFORE the transient-artifact filter; then apply
the transient filter to both paths and the ignore/watch filters to the
source; emit a deletion observation for the source (unconditionally) and drop
it from the cache; if the destination passes the filters, emit a creation
observation carrying the source's former content and record that content
under the destination. -/
def onMoved (cfg : Config) (now : ℤ) (src dest : String) (isDir : Bool) (s : State) : State :=
  if isDir then s
  else
    let s := cancelPending s src
    if isTransient src || isTransient dest then s
    else if shouldIgnore cfg s.fs src || !(shouldWatch cfg src) then s
    else
      let srcRel := cfg.relPath src
      let oldContent := (lookupA s.fileContents src).getD ""
      let s := emit s ⟨srcRel, true, oldContent, "", generateDiff oldContent "" srcRel⟩
      let s := { s with fileContents := eraseA s.fileContents src }
      if !(shouldIgnore cfg s.fs dest) && shouldWatch cfg dest then
        let destRel := cfg.relPath dest
        emit { s with fileContents := updA s.fileContents dest oldContent }
          ⟨destRel, false, "", oldContent, generateDiff "" oldContent destRel⟩
      else s

/-- FileWatcher.stop: cancel every timer held in debounce_timers (removing
their queue entries) and halt the notification source (no further raw events
are delivered). Timers not recorded in debounce_timers — the delayed-delete
timers started by on_deleted — are not cancelled. -/
def stopWatcher (s : State) : State :=
  { s with queue := s.queue.filter (fun e => !(s.debounceTimers.any (fun kv => kv.2 = e.tid))),
           stopped := true }

/-! ## The driver: timers and raw-event delivery -/

/-- Run one fired timer callback. -/
def runTask (cfg : Config) : Task → State → State
  | .debounce p, s => handleDebouncedChange cfg p s
  | .delayedDelete p oldContent, s => handleDelayedDelete cfg p oldContent s

/-- Fire, in schedule order, the queued timers due at time now (fire time
reached): repeatedly take the first due entry of the current queue, remove it
and run its callback. Timer callbacks never start new timers, so each round
shrinks the queue and the initial queue length bounds the rounds. -/
def fireDueFuel (cfg : Config) (now : ℤ) : ℕ → State → State
  | 0, s => s
  | fuel + 1, s =>
    match s.queue.find? (fun e => e.fireAt ≤ now) with
    | some e =>
      fireDueFuel cfg now fuel
        (runTask cfg e.task { s with queue := s.queue.filter (fun x => !(x.tid = e.tid : Bool)) })
    | none => s

/-- Fire every due timer at time now. -/
def fireDue (cfg : Config) (now : ℤ) (s : State) : State :=
  fireDueFuel cfg now s.queue.length s

/-- Fire every remaining timer in schedule order (a long-enough silence):
repeatedly remove and run the head of the queue. -/
def flushFuel (cfg : Config) : ℕ → State → State
  | 0, s => s
  | fuel + 1, s =>
    match s.queue with
    | [] => s
    | e :: _ =>
      flushFuel cfg fuel
        (runTask cfg e.task { s with queue := s.queue.filter (fun x => !(x.tid = e.tid : Bool)) })

/-- Let every outstanding timer fire. -/
def flushAll (cfg : Config) (s : State) : State :=
  flushFuel cfg s.queue.length s

/-- External happenings driven through the watcher: raw filesystem events
(delivered by the observer thread unless the watcher is stopped), a disk
write by some other agent (changes what subsequent reads return), and the
stop() call. -/
inductive Action where
  | created (p : String) (isDir : Bool)
  | modified (p : String) (isDir : Bool)
  | deleted (p : String) (isDir : Bool)
  | moved (src dest : String) (isDir : Bool)
  | write (p : String) (c : String)
  | stopAction

/-- Deliver one timestamped action: first fire every timer due by that time,
then apply the action; raw events are dropped once the watcher is stopped. -/
def step (cfg : Config) (s : State) : (ℤ × Action) → State
  | (t, a) =>
    let s := fireDue cfg t s
    match a with
    | .write p c => { s with fs := ⟨fun q => if q = p then c else s.fs.read q, s.fs.isDir⟩ }
    | .stopAction => stopWatcher s
    | .created p d => if s.stopped then s else onCreated cfg t p d s
    | .modified p d => if s.stopped then s else onModified cfg t p d s
    | .deleted p d => if s.stopped then s else onDeleted cfg t p d s
    | .moved p q d => if s.stopped then s else onMoved cfg t p q d s

/-- Deliver a timestamped action sequence. -/
def run (cfg : Config) (s : State) (items : List (ℤ × Action)) : State :=
  items.foldl (step cfg) s

/-- A freshly constructed watcher over content cache f and filesystem fs:
no pending changes, no timers, no recent deletes, nothing emitted, debouncing
on (the default), not stopped. -/
def initState (f : List (String × String)) (fs : FS) : State :=
  ⟨f, [], [], [], [], 0, [], fs, false, true⟩

end Watch

namespace Watch

/-! ## Small facts about the association-list and set helpers -/

theorem lookupA_updA_self (l : List (String × α)) (k : String) (v : α) :
    lookupA (updA l k v) k = some v := by
  induction l with
  | nil => simp [updA, lookupA]
  | cons kv rest ih =>
    obtain ⟨k0, v0⟩ := kv
    by_cases h : k0 = k
    · simp [updA, lookupA, h]
    · simp [updA, lookupA, h, ih]

theorem lookupA_updA_ne (l : List (String × α)) (k k' : String) (v : α) (h : k ≠ k') :
    lookupA (updA l k v) k' = lookupA l k' := by
  induction l with
  | nil => simp [updA, lookupA, h]
  | cons kv rest ih =>
    obtain ⟨k0, v0⟩ := kv
    by_cases h0 : k0 = k
    · subst h0
      simp [updA, lookupA, h]
    · simp [updA, lookupA, h0, ih]

theorem lookupA_eraseA_ne (l : List (String × α)) (k k' : String) (h : k ≠ k') :
    lookupA (eraseA l k) k' = lookupA l k' := by
  induction l with
  | nil => simp [eraseA, lookupA]
  | cons kv rest ih =>
    obtain ⟨k0, v0⟩ := kv
    by_cases h0 : k0 = k
    · subst h0
      simp [eraseA, lookupA, h, ih]
    · simp [eraseA, lookupA, h0, ih]

/-- _should_ignore reads the filesystem only through os.path.isdir; the
result cannot depend on file contents. -/
theorem shouldIgnore_read_irrel (cfg : Config) (r r' : String → String)
    (d : String → Bool) (p : String) :
    shouldIgnore cfg ⟨r, d⟩ p = shouldIgnore cfg ⟨r', d⟩ p := rfl

/-! ## Concrete fixtures used by witnesses and counterexamples -/

/-- A maximally permissive configuration: no include patterns, only the
built-in ignore patterns, glob and gitignore matchers that match nothing, and
paths already relative. -/
def cfgT : Config := ⟨none, [".git", ".git/*"], fun _ _ => false, fun _ => false, fun p => p⟩

/-- A filesystem on which every read fails (yields "") and nothing is a
directory. -/
def fsE : FS := ⟨fun _ => "", fun _ => false⟩

/-- A configuration whose gitignore pattern set matches exactly the relative
path "foo/" — the behaviour pathspec gives a directory-only gitignore rule
such as "foo/". -/
def cfgSlash : Config := ⟨none, [".git", ".git/*"], fun _ _ => false, fun r => r = "foo/", fun p => p⟩

/-- A filesystem on which every path is a directory. -/
def fsDirAll : FS := ⟨fun _ => "", fun _ => true⟩

/-! ## Claim C7: purity of the path predicates -/

/-- Claim C7, counterexample: _should_ignore consults os.path.isdir, so with
the same configuration and the same path its result changes with the
filesystem: under a gitignore rule matching only "foo/", the path "foo" is
ignored exactly when it is currently a directory. -/
theorem C7_counterexample :
    shouldIgnore cfgSlash fsDirAll ("foo") ≠ shouldIgnore cfgSlash fsE ("foo") := by
  decide

/-- Claim C7, amended: _should_watch reads only the configuration and the
path (it takes no filesystem at all), and _should_ignore depends on the
filesystem only through the is-directory status of its path argument: two
filesystems that agree on isDir at the path give the same answer. -/
theorem C7_amended (cfg : Config) (fs fs' : FS) (p : String)
    (h : fs.isDir p = fs'.isDir p) :
    shouldIgnore cfg fs p = shouldIgnore cfg fs' p := by
  unfold shouldIgnore
  rw [h]

/-- Claim C7, witness for the amended theorem at a concrete instance. -/
theorem C7_amended_witness :
    shouldIgnore cfgSlash ⟨fun _ => "a", fun _ => false⟩ ("foo") =
      shouldIgnore cfgSlash fsE ("foo") :=
  C7_amended cfgSlash ⟨fun _ => "a", fun _ => false⟩ fsE ("foo") (by decide)

/-! ## Claim C9: .git segments are always ignored -/

/-- Claim C9: whenever the relative form of a path contains a segment equal
to ".git", _should_ignore returns true (regardless of the include patterns,
which _should_ignore never consults). -/
theorem C9_git_segment_ignored (cfg : Config) (fs : FS) (p : String)
    (h : (splitSlash (cfg.relPath p)).contains (".git") = true) :
    shouldIgnore cfg fs p = true := by
  unfold shouldIgnore
  simp only [h, if_true]

/-- Claim C9, witness: a concrete path under .git is ignored. -/
theorem C9_witness : shouldIgnore cfgT fsE (".git/objects/x") = true :=
  C9_git_segment_ignored cfgT fsE (".git/objects/x") (by decide)

/-! ## Claim C10: the debounced commit always reports prev_exist = true -/

/-- Claim C10: every observation the debounced commit handler appends to the
stream carries prev_exist = true, even when the path is absent from the
content cache (the old content then defaults to ""). -/
theorem C10_debounced_prev_exist (cfg : Config) (p : String) (s : State)
    (o : Observation) (ho : o ∈ (handleDebouncedChange cfg p s).emitted) :
    o ∈ s.emitted ∨ o.prevExist = true := by
  unfold handleDebouncedChange at ho
  dsimp only at ho
  split at ho
  · exact Or.inl ho
  · split at ho
    · exact Or.inl ho
    · split at ho
      · exact Or.inl ho
      · split at ho
        · simp only [emit] at ho
          rcases List.mem_append.1 ho with h | h
          · exact Or.inl h
          · have he := List.mem_singleton.1 h
            subst he
            exact Or.inr rfl
        · exact Or.inl ho

/-- Claim C10, witness: a file first seen through a debounced create (absent
from the cache, with nonempty content on disk) is committed with
prev_exist = true. -/
theorem C10_witness :
    (⟨"f", true, "", "x\n", "+x\n"⟩ : Observation) ∈ [] ∨
      (⟨"f", true, "", "x\n", "+x\n"⟩ : Observation).prevExist = true :=
  C10_debounced_prev_exist cfgT ("f")
    { initState [] ⟨fun _ => "x\n", fun _ => false⟩ with pendingChanges := ["f"] }
    ⟨"f", true, "", "x\n", "+x\n"⟩ (by decide)

end Watch

namespace Watch

/-! ## Claim C4: suppression of no-op commits -/

/-- State fixture: a non-debounced watcher over an empty cache and a
filesystem on which every read yields "". -/
def s4 : State := { initState [] fsE with useDebouncing := false }

/-- Claim C4, counterexample: the non-debounced create path has no
old-equals-new check; creating a path whose read yields "" (an empty or
unreadable file) emits an observation whose old and new content are both
empty. The delete-finalization and move paths likewise emit unconditionally. -/
theorem C4_counterexample :
    (onCreated cfgT 0 ("a.txt") false s4).emitted =
      [⟨"a.txt", false, "", "", ""⟩] := by
  decide

/-- Claim C4, amended: the debounced commit handler and the non-debounced
modify path never emit when committed old content equals new content; the
non-debounced create path, the delete finalization and the move handler emit
unconditionally. -/
theorem C4_amended (cfg : Config) (t : ℤ) (p : String) (d : Bool) (s : State)
    (h : (lookupA s.fileContents p).getD "" = s.fs.read p) :
    (handleDebouncedChange cfg p s).emitted = s.emitted ∧
      (onModified cfg t p d s).emitted = s.emitted := by
  constructor
  · unfold handleDebouncedChange
    dsimp only
    split
    · rfl
    · split
      · rfl
      · split
        · rfl
        · split
          · exact absurd h (by assumption)
          · rfl
  · unfold onModified
    dsimp only
    split
    · rfl
    · split
      · rfl
      · split
        · rfl
        · split
          · unfold scheduleDebouncedChange
            dsimp only
            split <;> rfl
          · split
            · exact absurd h (by assumption)
            · rfl

/-- Claim C4, witness for the amended theorem: committing a path whose cached
content equals the on-disk content emits nothing on the two guarded paths. -/
theorem C4_amended_witness :
    (handleDebouncedChange cfgT ("f") (initState [("f", "x")] ⟨fun _ => "x", fun _ => false⟩)).emitted =
        (initState [("f", "x")] ⟨fun _ => "x", fun _ => false⟩).emitted ∧
      (onModified cfgT 0 ("f") false (initState [("f", "x")] ⟨fun _ => "x", fun _ => false⟩)).emitted =
        (initState [("f", "x")] ⟨fun _ => "x", fun _ => false⟩).emitted :=
  C4_amended cfgT 0 ("f") false (initState [("f", "x")] ⟨fun _ => "x", fun _ => false⟩) (by decide)

/-! ## Claim C8: the transient-artifact filter and shared state -/

/-- State fixture: a watcher with one pending debounced change for "src". -/
def s8 : State :=
  { initState [] fsE with pendingChanges := ["src"], debounceTimers := [("src", 0)],
                          queue := [⟨0, 100, .debounce "src"⟩], nextId := 1 }

/-- Claim C8, counterexample: on_moved cancels the pending debounced change
of the source path before the transient-artifact filter runs, so a move whose
destination is an editor swap file still clears the source's pending mark,
timer handle and queued task: shared state is mutated by a discarded event. -/
theorem C8_counterexample :
    ¬((onMoved cfgT 0 ("src") ("dest.swp") false s8).pendingChanges = s8.pendingChanges ∧
      (onMoved cfgT 0 ("src") ("dest.swp") false s8).debounceTimers = s8.debounceTimers ∧
      (onMoved cfgT 0 ("src") ("dest.swp") false s8).queue = s8.queue) := by
  decide

/-- Claim C8, amended: for create, modify and delete events the transient
filter runs before anything else, so a transient path leaves the state
entirely unchanged; for move events the source's pending debounced change is
cancelled first, and a move discarded by the transient filter (on either
path) leaves exactly that cancellation behind. -/
theorem C8_amended (cfg : Config) (t : ℤ) (p src dest : String) (d : Bool) (s : State) :
    (isTransient p = true →
      onCreated cfg t p d s = s ∧ onModified cfg t p d s = s ∧ onDeleted cfg t p d s = s) ∧
    ((isTransient src || isTransient dest) = true →
      onMoved cfg t src dest false s = cancelPending s src) := by
  constructor
  · intro h
    refine ⟨?_, ?_, ?_⟩
    · simp [onCreated, h]
    · simp [onModified, h]
    · simp [onDeleted, h]
  · intro h
    simp [onMoved, h]

/-- Claim C8, witness: a transient path leaves every handler inert, and a
move to a transient destination performs exactly the cancellation. -/
theorem C8_amended_witness :
    (onCreated cfgT 0 ("a.swp") false s8 = s8 ∧ onModified cfgT 0 ("a.swp") false s8 = s8 ∧
      onDeleted cfgT 0 ("a.swp") false s8 = s8) ∧
      onMoved cfgT 0 ("src") ("dest.swp") false s8 = cancelPending s8 ("src") :=
  ⟨(C8_amended cfgT 0 ("a.swp") ("src") ("dest.swp") false s8).1 (by decide),
   (C8_amended cfgT 0 ("a.swp") ("src") ("dest.swp") false s8).2 (by decide)⟩

end Watch

namespace Watch

/-! ## Claim C3: what stop() cancels

The Python stop() cancels exactly the timers held in debounce_timers; the
delayed-delete timer started by on_deleted is a local variable and is never
cancelled. We prove the invariant that every live debounce task is registered
under its path in debounce_timers, so stop() leaves only delayed-delete tasks
in the queue — and we exhibit a run in which such a task fires and emits
after stop() has returned. -/

theorem lookupA_some_mem (l : List (String × α)) (k : String) (v : α)
    (h : lookupA l k = some v) : (k, v) ∈ l := by
  induction l with
  | nil => simp [lookupA] at h
  | cons kv rest ih =>
    obtain ⟨k0, v0⟩ := kv
    by_cases h0 : k0 = k
    · subst h0
      simp [lookupA] at h
      simp [h]
    · simp [lookupA, h0] at h
      exact List.mem_cons_of_mem _ (ih h)

/-- The queue/table part of the registration invariant: every live debounce
task for a path carries exactly the timer id registered for that path. -/
def DRQ (q : List QEntry) (dt : List (String × ℕ)) : Prop :=
  ∀ e ∈ q, ∀ p, e.task = .debounce p → lookupA dt p = some e.tid

/-- Every live debounce task is registered under its path. -/
def DebounceRegistered (s : State) : Prop :=
  DRQ s.queue s.debounceTimers

theorem DRQ_sub {q q' : List QEntry} {dt : List (String × ℕ)}
    (hsub : ∀ e ∈ q', e ∈ q) (h : DRQ q dt) : DRQ q' dt :=
  fun e he p hp => h e (hsub e he) p hp

theorem DRQ_filter {q : List QEntry} {dt : List (String × ℕ)} (f : QEntry → Bool)
    (h : DRQ q dt) : DRQ (q.filter f) dt :=
  DRQ_sub (fun e he => (List.mem_filter.1 he).1) h

theorem DRQ_erase_no_p {q : List QEntry} {dt : List (String × ℕ)} {p : String}
    (h : DRQ q dt) (hp : ∀ e ∈ q, e.task ≠ .debounce p) : DRQ q (eraseA dt p) := by
  intro e he q0 hq0
  have hne : q0 ≠ p := by
    intro heq
    exact hp e he (heq ▸ hq0)
  rw [lookupA_eraseA_ne _ _ _ (fun heq => hne heq.symm)]
  exact h e he q0 hq0

theorem DRQ_cancel {q : List QEntry} {dt : List (String × ℕ)} {p : String} {tid0 : ℕ}
    (h : DRQ q dt) (hlk : lookupA dt p = some tid0) :
    DRQ (q.filter (fun x => !(x.tid = tid0 : Bool))) (eraseA dt p) := by
  intro e he q0 hq0
  rcases List.mem_filter.1 he with ⟨heq, hne⟩
  have htid : e.tid ≠ tid0 := by
    intro hx
    rw [hx] at hne
    simp at hne
  have hq0p : q0 ≠ p := by
    intro hx
    subst hx
    have := h e heq q0 hq0
    rw [hlk] at this
    exact htid (Option.some.inj this).symm
  rw [lookupA_eraseA_ne _ _ _ (fun hx => hq0p hx.symm)]
  exact h e heq q0 hq0

/-- After firing a debounce task for p that is in the queue, no debounce task
for p remains: all of them share the registered id, which was filtered out. -/
theorem DRQ_fire_no_p {q : List QEntry} {dt : List (String × ℕ)} {e : QEntry} {p : String}
    (h : DRQ q dt) (he : e ∈ q) (hp : e.task = .debounce p) :
    ∀ e' ∈ q.filter (fun x => !(x.tid = e.tid : Bool)), e'.task ≠ .debounce p := by
  intro e' he' hq
  rcases List.mem_filter.1 he' with ⟨heq, hne⟩
  have h1 := h e he p hp
  have h2 := h e' heq p hq
  rw [h1] at h2
  have : e.tid = e'.tid := Option.some.inj h2
  rw [this] at hne
  simp at hne

theorem DR_handleDebouncedChange {cfg : Config} {p : String} {s : State}
    (h : DebounceRegistered s) (hp : ∀ e ∈ s.queue, e.task ≠ .debounce p) :
    DebounceRegistered (handleDebouncedChange cfg p s) := by
  unfold handleDebouncedChange
  dsimp only
  split
  · exact h
  · have base : DRQ s.queue (eraseA s.debounceTimers p) := DRQ_erase_no_p h hp
    split
    · exact base
    · split
      · exact base
      · split
        · exact base
        · exact base

theorem DR_handleDelayedDelete {cfg : Config} {p c : String} {s : State}
    (h : DebounceRegistered s) :
    DebounceRegistered (handleDelayedDelete cfg p c s) := by
  unfold handleDelayedDelete
  split
  · exact h
  · exact h

theorem DR_scheduleDebouncedChange {now : ℤ} {p : String} {s : State}
    (h : DebounceRegistered s) :
    DebounceRegistered (scheduleDebouncedChange now p s) := by
  unfold scheduleDebouncedChange
  dsimp only
  split
  · next tid0 hlk =>
    intro e he q0 hq0
    rcases List.mem_append.1 he with he1 | he1
    · rcases List.mem_filter.1 he1 with ⟨heq, hne⟩
      have htid : e.tid ≠ tid0 := by
        intro hx
        rw [hx] at hne
        simp at hne
      have hq0p : q0 ≠ p := by
        intro hx
        subst hx
        have := h e heq q0 hq0
        rw [hlk] at this
        exact htid (Option.some.inj this).symm
      rw [lookupA_updA_ne _ _ _ _ (fun hx => hq0p hx.symm)]
      exact h e heq q0 hq0
    · have he2 := List.mem_singleton.1 he1
      subst he2
      cases hq0
      exact lookupA_updA_self _ _ _
  · next hlk =>
    intro e he q0 hq0
    rcases List.mem_append.1 he with he1 | he1
    · have hq0p : q0 ≠ p := by
        intro hx
        subst hx
        have := h e he1 q0 hq0
        rw [hlk] at this
        cases this
      rw [lookupA_updA_ne _ _ _ _ (fun hx => hq0p hx.symm)]
      exact h e he1 q0 hq0
    · have he2 := List.mem_singleton.1 he1
      subst he2
      cases hq0
      exact lookupA_updA_self _ _ _

theorem DR_cancelPending {s : State} {p : String} (h : DebounceRegistered s) :
    DebounceRegistered (cancelPending s p) := by
  unfold cancelPending
  split
  · next tid0 hlk => exact DRQ_cancel h hlk
  · exact h

theorem DR_onCreated {cfg : Config} {now : ℤ} {p : String} {d : Bool} {s : State}
    (h : DebounceRegistered s) : DebounceRegistered (onCreated cfg now p d s) := by
  unfold onCreated
  split
  · exact h
  · split
    · exact h
    · split
      · exact h
      · dsimp only
        split
        · next s1 hscan =>
          have : ∀ (rd : List (String × (String × ℤ))),
              scanRenames now p s rd = some s1 → DebounceRegistered s1 := by
            intro rd
            induction rd with
            | nil => intro hx; simp [scanRenames] at hx
            | cons kv rest ih =>
              obtain ⟨op, oc, ts⟩ := kv
              intro hx
              unfold scanRenames at hx
              split at hx
              · dsimp only at hx
                split at hx
                · cases hx
                  exact h
                · exact ih hx
              · exact ih hx
          exact this s.recentDeletes hscan
        · split
          · exact DR_scheduleDebouncedChange h
          · exact h

theorem DR_onModified {cfg : Config} {now : ℤ} {p : String} {d : Bool} {s : State}
    (h : DebounceRegistered s) : DebounceRegistered (onModified cfg now p d s) := by
  unfold onModified
  split
  · exact h
  · split
    · exact h
    · split
      · exact h
      · split
        · exact DR_scheduleDebouncedChange h
        · dsimp only
          split
          · exact h
          · exact h

theorem DR_onDeleted {cfg : Config} {now : ℤ} {p : String} {d : Bool} {s : State}
    (h : DebounceRegistered s) : DebounceRegistered (onDeleted cfg now p d s) := by
  unfold onDeleted
  split
  · exact h
  · split
    · exact h
    · have h1 : DebounceRegistered (cancelPending s p) := DR_cancelPending h
      dsimp only
      split
      · exact h1
      · split
        · intro e he q0 hq0
          rcases List.mem_append.1 he with he1 | he1
          · exact h1 e he1 q0 hq0
          · have he2 := List.mem_singleton.1 he1
            subst he2
            cases hq0
        · exact h1

theorem DR_onMoved {cfg : Config} {now : ℤ} {src dest : String} {d : Bool} {s : State}
    (h : DebounceRegistered s) : DebounceRegistered (onMoved cfg now src dest d s) := by
  unfold onMoved
  split
  · exact h
  · have h1 : DebounceRegistered (cancelPending s src) := DR_cancelPending h
    dsimp only
    split
    · exact h1
    · split
      · exact h1
      · split
        · exact h1
        · exact h1

theorem DR_stopWatcher {s : State} (h : DebounceRegistered s) :
    DebounceRegistered (stopWatcher s) :=
  DRQ_filter _ h

theorem DR_runTask {cfg : Config} {tk : Task} {s : State}
    (h : DebounceRegistered s)
    (hp : ∀ p, tk = .debounce p → ∀ e ∈ s.queue, e.task ≠ .debounce p) :
    DebounceRegistered (runTask cfg tk s) := by
  cases tk with
  | debounce p => exact DR_handleDebouncedChange h (hp p rfl)
  | delayedDelete p c => exact DR_handleDelayedDelete h

theorem DR_fireDueFuel {cfg : Config} {now : ℤ} (fuel : ℕ) (s : State)
    (h : DebounceRegistered s) : DebounceRegistered (fireDueFuel cfg now fuel s) := by
  induction fuel generalizing s with
  | zero => exact h
  | succ n ih =>
    unfold fireDueFuel
    split
    · next e hfind =>
      have he : e ∈ s.queue := List.mem_of_find?_eq_some hfind
      refine ih _ (DR_runTask (DRQ_filter _ h) ?_)
      intro p hp e' he'
      exact DRQ_fire_no_p h he (hp ▸ rfl) e' he'
    · exact h

theorem DR_flushFuel {cfg : Config} (fuel : ℕ) (s : State)
    (h : DebounceRegistered s) : DebounceRegistered (flushFuel cfg fuel s) := by
  induction fuel generalizing s with
  | zero => exact h
  | succ n ih =>
    unfold flushFuel
    split
    · exact h
    · next e rest hq =>
      have he : e ∈ s.queue := by
        rw [hq]
        exact List.mem_cons_self _ _
      refine ih _ (DR_runTask (DRQ_filter _ h) ?_)
      intro p hp e' he'
      exact DRQ_fire_no_p h he (hp ▸ rfl) e' he'

theorem DR_step {cfg : Config} {s : State} (it : ℤ × Action)
    (h : DebounceRegistered s) : DebounceRegistered (step cfg s it) := by
  obtain ⟨t, a⟩ := it
  have h1 : DebounceRegistered (fireDue cfg t s) := DR_fireDueFuel _ _ h
  cases a with
  | write p c => exact h1
  | stopAction => exact DR_stopWatcher h1
  | created p d =>
    unfold step
    dsimp only
    split
    · exact h1
    · exact DR_onCreated h1
  | modified p d =>
    unfold step
    dsimp only
    split
    · exact h1
    · exact DR_onModified h1
  | deleted p d =>
    unfold step
    dsimp only
    split
    · exact h1
    · exact DR_onDeleted h1
  | moved p q d =>
    unfold step
    dsimp only
    split
    · exact h1
    · exact DR_onMoved h1

theorem DR_run {cfg : Config} (items : List (ℤ × Action)) (s : State)
    (h : DebounceRegistered s) : DebounceRegistered (run cfg s items) := by
  induction items generalizing s with
  | nil => exact h
  | cons it rest ih => exact ih _ (DR_step it h)

/-- In a registered state, stop() leaves only delayed-delete tasks queued:
it cancels every timer recorded in debounce_timers, and by the invariant that
is every live debounce task. -/
theorem stopWatcher_queue_delayed {s : State} (h : DebounceRegistered s) :
    ((stopWatcher s).queue.all (fun e => e.task.isDelayedDelete)) = true := by
  rw [List.all_eq_true]
  intro e he
  rcases List.mem_filter.1 he with ⟨heq, hkeep⟩
  cases htask : e.task with
  | delayedDelete p c => rfl
  | debounce p =>
    exfalso
    have hreg := h e heq p htask
    have hmem := lookupA_some_mem _ _ _ hreg
    have : s.debounceTimers.any (fun kv => kv.2 = e.tid) = true := by
      rw [List.any_eq_true]
      exact ⟨(p, e.tid), hmem, by simp⟩
    rw [this] at hkeep
    simp at hkeep

/-- Claim C3, counterexample: delete a tracked file, then call stop() before
the rename window elapses. Nothing has been emitted when stop() returns, but
the delayed-delete timer (never cancelled by stop(), which only cancels
debounce_timers) still fires, emits a deletion observation, and mutates the
RecentDelete table. -/
theorem C3_counterexample :
    (run cfgT (initState [("a", "x\n")] fsE)
        [(0, .deleted ("a") false), (50, .stopAction)]).emitted = [] ∧
      (flushAll cfgT (run cfgT (initState [("a", "x\n")] fsE)
        [(0, .deleted ("a") false), (50, .stopAction)])).emitted =
        [⟨"a", true, "x\n", "", "-x\n"⟩] := by
  decide

/-- Claim C3, amended: in any reachable state, stop() cancels every
outstanding debounced-change task (those are exactly the timers registered in
debounce_timers), so every task still queued after stop() returns is a
rename-finalization (delayed-delete) task; those are not cancelled and may
still fire and emit. -/
theorem C3_amended (cfg : Config) (f : List (String × String)) (fs : FS)
    (items : List (ℤ × Action)) :
    ((stopWatcher (run cfg (initState f fs) items)).queue.all
      (fun e => e.task.isDelayedDelete)) = true :=
  stopWatcher_queue_delayed (DR_run items _ (fun e he => by cases he))

end Watch

namespace Watch

/-! ## Claim C2: a content-matching create within the window is a rename -/

/-- Claim C2: starting from a fresh watcher whose cache holds content C for
path A, a delete of A followed within the rename window by a create of B
whose on-disk content is C produces no observation at all (the create
consumes the RecentDelete entry, ContentCache gains B with content C, and the
delayed finalization finds nothing to do); a later modify of B that changes
the content to D is committed as one observation diffed against C. -/
theorem C2_rename_consumed (cfg : Config) (F : List (String × String)) (fs0 : FS)
    (A B C D : String) (t tc tm : ℤ)
    (hCache : lookupA F A = some C)
    (hTA : isTransient A = false) (hTB : isTransient B = false)
    (hIA : shouldIgnore cfg fs0 A = false) (hWA : shouldWatch cfg A = true)
    (hIB : shouldIgnore cfg fs0 B = false) (hWB : shouldWatch cfg B = true)
    (hRead : fs0.read B = C)
    (ht : t ≤ tc) (hwin : tc - t < renameWindow) (hD : D ≠ C)
    (hsil : t + renameWindow ≤ tm) :
    (flushAll cfg (run cfg (initState F fs0)
        [(t, .deleted A false), (tc, .created B false)])).emitted = [] ∧
      lookupA (flushAll cfg (run cfg (initState F fs0)
        [(t, .deleted A false), (tc, .created B false)])).fileContents B = some C ∧
      (flushAll cfg (run cfg (initState F fs0)
        [(t, .deleted A false), (tc, .created B false)])).recentDeletes = [] ∧
      (flushAll cfg (run cfg (flushAll cfg (run cfg (initState F fs0)
          [(t, .deleted A false), (tc, .created B false)]))
        [(tm, .write B D), (tm, .modified B false)])).emitted =
        [⟨cfg.relPath B, true, C, D, generateDiff C D (cfg.relPath B)⟩] := by
  have hnd : ¬(t + renameWindow ≤ tc) := by omega
  have hw2 : tc - t ≤ renameWindow := le_of_lt hwin
  -- the state after the delete of A
  have e1 : step cfg (initState F fs0) (t, .deleted A false) =
      ⟨eraseA F A, [], [], [(A, (C, t))], [⟨0, t + renameWindow, .delayedDelete A C⟩],
        1, [], fs0, false, true⟩ := by
    unfold step fireDue initState
    simp only [List.length_nil, fireDueFuel]
    unfold onDeleted cancelPending
    simp only [hTA, hIA, hWA, hCache, lookupA, Bool.false_or, Bool.not_true,
      Option.getD_some, if_neg, Bool.false_eq_true, not_false_eq_true, if_false]
    rfl
  -- the create of B consumes the recent-delete entry
  have e2 : step cfg (⟨eraseA F A, [], [], [(A, (C, t))],
        [⟨0, t + renameWindow, .delayedDelete A C⟩], 1, [], fs0, false, true⟩ : State)
        (tc, .created B false) =
      ⟨updA (eraseA F A) B C, [], [], [], [⟨0, t + renameWindow, .delayedDelete A C⟩],
        1, [], fs0, false, true⟩ := by
    have hdec : decide (t + renameWindow ≤ tc) = false := decide_eq_false hnd
    unfold step fireDue
    simp only [List.length_cons, List.length_nil, List.find?, fireDueFuel, hdec]
    unfold onCreated scanRenames
    simp only [hTB, hIB, hWB, Bool.false_or, Bool.not_true, Bool.false_eq_true,
      not_false_eq_true, if_false]
    rw [if_pos hw2]
    simp only [hRead]
    simp [eraseA]
  -- the delayed finalization finds nothing
  have e3 : flushAll cfg (⟨updA (eraseA F A) B C, [], [], [],
        [⟨0, t + renameWindow, .delayedDelete A C⟩], 1, [], fs0, false, true⟩ : State) =
      ⟨updA (eraseA F A) B C, [], [], [], [], 1, [], fs0, false, true⟩ := by
    unfold flushAll
    simp only [List.length_cons, List.length_nil, flushFuel]
    unfold runTask handleDelayedDelete
    simp [lookupA, flushFuel]
  rw [show run cfg (initState F fs0) [(t, .deleted A false), (tc, .created B false)] =
      (⟨updA (eraseA F A) B C, [], [], [], [⟨0, t + renameWindow, .delayedDelete A C⟩],
        1, [], fs0, false, true⟩ : State) from by
    unfold run
    rw [List.foldl_cons, e1, List.foldl_cons, e2]
    rfl]
  rw [e3]
  refine ⟨rfl, lookupA_updA_self _ _ _, rfl, ?_⟩
  -- the subsequent modify of B
  have hIB2 : shouldIgnore cfg ⟨fun q => if q = B then D else fs0.read q, fs0.isDir⟩ B = false := by
    rw [shouldIgnore_read_irrel cfg _ fs0.read fs0.isDir B]
    exact hIB
  have e4 : step cfg (⟨updA (eraseA F A) B C, [], [], [], [], 1, [], fs0, false, true⟩ : State)
        (tm, .write B D) =
      ⟨updA (eraseA F A) B C, [], [], [], [], 1, [],
        ⟨fun q => if q = B then D else fs0.read q, fs0.isDir⟩, false, true⟩ := by
    unfold step fireDue
    simp only [List.length_nil, fireDueFuel]
  have e5 : step cfg (⟨updA (eraseA F A) B C, [], [], [], [], 1, [],
        ⟨fun q => if q = B then D else fs0.read q, fs0.isDir⟩, false, true⟩ : State)
        (tm, .modified B false) =
      ⟨updA (eraseA F A) B C, [B], [(B, 1)], [], [⟨1, tm + debounceDelay, .debounce B⟩],
        2, [], ⟨fun q => if q = B then D else fs0.read q, fs0.isDir⟩, false, true⟩ := by
    unfold step fireDue
    simp only [List.length_nil, fireDueFuel]
    unfold onModified scheduleDebouncedChange
    simp only [hTB, hIB2, hWB, Bool.false_or, Bool.not_true, Bool.false_eq_true,
      not_false_eq_true, if_false, if_true, lookupA]
    rfl
  have e6 : flushAll cfg (⟨updA (eraseA F A) B C, [B], [(B, 1)], [],
        [⟨1, tm + debounceDelay, .debounce B⟩], 2, [],
        ⟨fun q => if q = B then D else fs0.read q, fs0.isDir⟩, false, true⟩ : State) =
      emit (⟨updA (updA (eraseA F A) B C) B D, [], [], [], [], 2, [],
        ⟨fun q => if q = B then D else fs0.read q, fs0.isDir⟩, false, true⟩ : State)
        ⟨cfg.relPath B, true, C, D, generateDiff C D (cfg.relPath B)⟩ := by
    unfold flushAll
    simp only [List.length_cons, List.length_nil, flushFuel]
    unfold runTask handleDebouncedChange
    simp only [List.contains_cons, List.filter]
    rw [if_neg (by simp)]
    simp only [hTB, hIB2, hWB, Bool.false_or, Bool.not_true, Bool.false_eq_true,
      not_false_eq_true, if_false, delS, List.filter, lookupA_updA_self, Option.getD_some]
    have hCD : C ≠ D := fun hx => hD hx.symm
    simp only [if_true, decide_True, Bool.not_true, eraseA, eq_self_iff_true]
    rw [if_pos hCD]
  rw [show run cfg (⟨updA (eraseA F A) B C, [], [], [], [], 1, [], fs0, false, true⟩ : State)
      [(tm, .write B D), (tm, .modified B false)] =
      (⟨updA (eraseA F A) B C, [B], [(B, 1)], [], [⟨1, tm + debounceDelay, .debounce B⟩],
        2, [], ⟨fun q => if q = B then D else fs0.read q, fs0.isDir⟩, false, true⟩ : State) from by
    unfold run
    rw [List.foldl_cons, e4, List.foldl_cons, e5]
    rfl]
  rw [e6]
  rfl

/-- Claim C2, witness: a concrete rename (delete a.txt, recreate as b.txt
with identical content within the window) emits nothing, caches the content
under the new name, and a later modify diffs against the old content. -/
theorem C2_witness :
    (flushAll cfgT (run cfgT (initState [("a", "x\n")] ⟨fun q => if q = "b" then "x\n" else "", fun _ => false⟩)
        [(0, .deleted ("a") false), (50, .created ("b") false)])).emitted = [] ∧
      lookupA (flushAll cfgT (run cfgT (initState [("a", "x\n")] ⟨fun q => if q = "b" then "x\n" else "", fun _ => false⟩)
        [(0, .deleted ("a") false), (50, .created ("b") false)])).fileContents ("b") = some ("x\n") ∧
      (flushAll cfgT (run cfgT (initState [("a", "x\n")] ⟨fun q => if q = "b" then "x\n" else "", fun _ => false⟩)
        [(0, .deleted ("a") false), (50, .created ("b") false)])).recentDeletes = [] ∧
      (flushAll cfgT (run cfgT (flushAll cfgT (run cfgT (initState [("a", "x\n")] ⟨fun q => if q = "b" then "x\n" else "", fun _ => false⟩)
          [(0, .deleted ("a") false), (50, .created ("b") false)]))
        [(200, .write ("b") ("y\n")), (200, .modified ("b") false)])).emitted =
        [⟨"b", true, "x\n", "y\n", generateDiff ("x\n") ("y\n") ("b")⟩] :=
  C2_rename_consumed cfgT [("a", "x\n")] ⟨fun q => if q = "b" then "x\n" else "", fun _ => false⟩
    ("a") ("b") ("x\n") ("y\n") 0 50 200 (by decide) (by decide) (by decide) (by decide)
    (by decide) (by decide) (by decide) (by decide) (by decide) (by decide) (by decide)
    (by decide)

end Watch

namespace Watch

/-! ## Claim C6: a mismatched create leaves two independent observations -/

/-- Claim C6, counterexample to the claim as stated: if the created file's
content C2 differs from the deleted content C but is empty, the debounced
commit for B suppresses the creation observation (old "" equals new ""), so
only ONE observation (the deletion of A) is emitted, not two. -/
theorem C6_counterexample :
    (flushAll cfgT (run cfgT (initState [("a", "x\n")] fsE)
        [(0, .deleted ("a") false), (50, .created ("b") false)])).emitted =
      [⟨"a", true, "x\n", "", "-x\n"⟩] := by
  decide

/-- Claim C6, amended: delete of A (cached content C) followed by create of B
(disk content C2 with C2 ≠ C and C2 nonempty), whether the create falls
inside or outside the rename window, yields exactly two observations: the
deletion of A (C to empty, emitted by the delayed finalization) and the
creation of B (empty to C2, committed by the debounce handler, which reports
prev_exist = true). When C2 is empty, the creation observation is suppressed
by the no-op check and only the deletion is emitted. -/
theorem C6_two_observations (cfg : Config) (F : List (String × String)) (fs0 : FS)
    (A B C C2 : String) (t tc : ℤ)
    (hCache : lookupA F A = some C)
    (hB : lookupA (eraseA F A) B = none)
    (hTA : isTransient A = false) (hTB : isTransient B = false)
    (hIA : shouldIgnore cfg fs0 A = false) (hWA : shouldWatch cfg A = true)
    (hIB : shouldIgnore cfg fs0 B = false) (hWB : shouldWatch cfg B = true)
    (hRead : fs0.read B = C2)
    (hne : C2 ≠ C) (hC2 : C2 ≠ "") (ht : t ≤ tc) :
    (flushAll cfg (run cfg (initState F fs0)
        [(t, .deleted A false), (tc, .created B false)])).emitted =
      [⟨cfg.relPath A, true, C, "", generateDiff C "" (cfg.relPath A)⟩,
       ⟨cfg.relPath B, true, "", C2, generateDiff "" C2 (cfg.relPath B)⟩] := by
  have e1 : step cfg (initState F fs0) (t, .deleted A false) =
      ⟨eraseA F A, [], [], [(A, (C, t))], [⟨0, t + renameWindow, .delayedDelete A C⟩],
        1, [], fs0, false, true⟩ := by
    unfold step fireDue initState
    simp only [List.length_nil, fireDueFuel]
    unfold onDeleted cancelPending
    simp only [hTA, hIA, hWA, hCache, lookupA, Bool.false_or, Bool.not_true,
      Option.getD_some, if_neg, Bool.false_eq_true, not_false_eq_true, if_false]
    rfl
  have hrun : run cfg (initState F fs0) [(t, .deleted A false), (tc, .created B false)] =
      step cfg (⟨eraseA F A, [], [], [(A, (C, t))],
        [⟨0, t + renameWindow, .delayedDelete A C⟩], 1, [], fs0, false, true⟩ : State)
        (tc, .created B false) := by
    unfold run
    rw [List.foldl_cons, e1]
    rfl
  rw [hrun]
  have hBne : ("" : String) ≠ C2 := fun hx => hC2 hx.symm
  rcases le_or_lt (t + renameWindow) tc with hdue | hdue
  · -- the create arrives after the window: the finalization has already fired
    have e2 : step cfg (⟨eraseA F A, [], [], [(A, (C, t))],
          [⟨0, t + renameWindow, .delayedDelete A C⟩], 1, [], fs0, false, true⟩ : State)
          (tc, .created B false) =
        ⟨eraseA F A, [B], [(B, 1)], [],
          [⟨1, tc + debounceDelay, .debounce B⟩], 2,
          [⟨cfg.relPath A, true, C, "", generateDiff C "" (cfg.relPath A)⟩],
          fs0, false, true⟩ := by
      have hdec : decide (t + renameWindow ≤ tc) = true := decide_eq_true hdue
      unfold step fireDue
      simp only [List.length_cons, List.length_nil, List.find?, fireDueFuel, hdec]
      unfold runTask handleDelayedDelete
      simp only [lookupA, if_pos rfl, List.filter, eraseA, fireDueFuel]
      unfold onCreated scanRenames
      simp only [hTB, hIB, hWB, Bool.false_or, Bool.not_true, Bool.false_eq_true,
        not_false_eq_true, if_false]
      unfold scheduleDebouncedChange
      simp only [lookupA]
      simp [emit, eraseA, addS, updA, hIB, decide_eq_true rfl]
    rw [e2]
    unfold flushAll
    simp only [List.length_cons, List.length_nil, flushFuel]
    unfold runTask handleDebouncedChange
    simp only [List.contains_cons, List.filter]
    rw [if_neg (by simp)]
    simp only [hTB, hIB, hWB, Bool.false_or, Bool.not_true, Bool.false_eq_true,
      not_false_eq_true, if_false, delS, List.filter, lookupA_updA_self, Option.getD_some,
      hB, hRead, Option.getD_none, eraseA, eq_self_iff_true, if_true, decide_True,
      Bool.not_true]
    rw [if_pos hBne]
    simp [emit, flushFuel]
  · -- the create arrives inside the window but the content differs
    have e2 : step cfg (⟨eraseA F A, [], [], [(A, (C, t))],
          [⟨0, t + renameWindow, .delayedDelete A C⟩], 1, [], fs0, false, true⟩ : State)
          (tc, .created B false) =
        ⟨eraseA F A, [B], [(B, 1)], [(A, (C, t))],
          [⟨0, t + renameWindow, .delayedDelete A C⟩, ⟨1, tc + debounceDelay, .debounce B⟩],
          2, [], fs0, false, true⟩ := by
      have hdec : decide (t + renameWindow ≤ tc) = false := decide_eq_false (by omega)
      have hw2 : tc - t ≤ renameWindow := by omega
      unfold step fireDue
      simp only [List.length_cons, List.length_nil, List.find?, fireDueFuel, hdec]
      unfold onCreated scanRenames
      simp only [hTB, hIB, hWB, Bool.false_or, Bool.not_true, Bool.false_eq_true,
        not_false_eq_true, if_false]
      rw [if_pos hw2]
      simp only [hRead]
      rw [if_neg hne]
      unfold scanRenames scheduleDebouncedChange
      simp only [lookupA]
      rfl
    rw [e2]
    unfold flushAll
    simp only [List.length_cons, List.length_nil, flushFuel]
    unfold runTask handleDelayedDelete handleDebouncedChange
    simp [lookupA, eraseA, emit, delS, addS, hTB, hIB, hWB, hB, hRead, hBne]

/-- Claim C6, witness: a concrete delete of a.txt followed inside the window
by a create of b.txt with different nonempty content yields exactly the
deletion and the creation observation. -/
theorem C6_witness :
    (flushAll cfgT (run cfgT (initState [("a", "x\n")] ⟨fun q => if q = "b" then "y\n" else "", fun _ => false⟩)
        [(0, .deleted ("a") false), (50, .created ("b") false)])).emitted =
      [⟨"a", true, "x\n", "", generateDiff ("x\n") ("") ("a")⟩,
       ⟨"b", true, "", "y\n", generateDiff ("") ("y\n") ("b")⟩] :=
  C6_two_observations cfgT [("a", "x\n")] ⟨fun q => if q = "b" then "y\n" else "", fun _ => false⟩
    ("a") ("b") ("x\n") ("y\n") 0 50 (by decide) (by decide) (by decide) (by decide)
    (by decide) (by decide) (by decide) (by decide) (by decide) (by decide) (by decide)
    (by decide)

end Watch

namespace Watch

/-! ## Claim C5: burst coalescing -/

/-- The raw event sequence of a burst of modifications: each external write
is followed by its modify notification at the same time. -/
def modEvents (p : String) (mods : List (ℤ × String)) : List (ℤ × Action) :=
  (mods.map (fun tc => [(tc.1, Action.write p tc.2), (tc.1, Action.modified p false)])).join

/-- The watcher state in the middle of a burst on path p: one pending change,
one live debounce timer (id tid, scheduled at the last event time tl plus the
debounce delay), the cache untouched, nothing emitted, and the disk holding
the last written content cl. -/
def c5mid (F : List (String × String)) (fs0 : FS) (p : String)
    (tid : ℕ) (tl : ℤ) (cl : String) : State :=
  ⟨F, [p], [(p, tid)], [], [⟨tid, tl + debounceDelay, .debounce p⟩], tid + 1, [],
    ⟨fun q => if q = p then cl else fs0.read q, fs0.isDir⟩, false, true⟩

/-- Claim C5, burst induction: from mid-burst state, each further
modification arriving strictly before the pending timer fires cancels that
timer and schedules a fresh one; the cache is never touched and nothing is
emitted. -/
theorem c5_run_aux (cfg : Config) (F : List (String × String)) (fs0 : FS) (p : String)
    (hT : isTransient p = false) (hI : shouldIgnore cfg fs0 p = false)
    (hW : shouldWatch cfg p = true) :
    ∀ (mods : List (ℤ × String)) (tid : ℕ) (tl : ℤ) (cl : String),
      List.Chain' (fun x y => y.1 < x.1 + debounceDelay) ((tl, cl) :: mods) →
      run cfg (c5mid F fs0 p tid tl cl) (modEvents p mods) =
        c5mid F fs0 p (tid + mods.length) (mods.getLastD (tl, cl)).1
          (mods.getLastD (tl, cl)).2 := by
  intro mods
  induction mods with
  | nil =>
    intro tid tl cl hch
    simp [modEvents, run, c5mid]
  | cons hd rest ih =>
    obtain ⟨t1, c1⟩ := hd
    intro tid tl cl hch
    rw [List.chain'_cons] at hch
    obtain ⟨h1, hch2⟩ := hch
    simp only at h1
    have hdec : decide (tl + debounceDelay ≤ t1) = false := decide_eq_false (by omega)
    have hI1 : shouldIgnore cfg ⟨fun q => if q = p then c1 else fs0.read q, fs0.isDir⟩ p
        = false := by
      rw [shouldIgnore_read_irrel cfg _ fs0.read fs0.isDir p]
      exact hI
    have hme : modEvents p ((t1, c1) :: rest) =
        (t1, Action.write p c1) :: (t1, Action.modified p false) :: modEvents p rest := by
      simp [modEvents]
    have ew : step cfg (c5mid F fs0 p tid tl cl) (t1, Action.write p c1) =
        ⟨F, [p], [(p, tid)], [], [⟨tid, tl + debounceDelay, .debounce p⟩], tid + 1, [],
          ⟨fun q => if q = p then c1 else fs0.read q, fs0.isDir⟩, false, true⟩ := by
      unfold step fireDue c5mid
      simp only [List.length_cons, List.length_nil, List.find?, fireDueFuel, hdec]
      congr 1
      congr 1
      funext q
      by_cases hq : q = p <;> simp [hq]
    have em : step cfg (⟨F, [p], [(p, tid)], [], [⟨tid, tl + debounceDelay, .debounce p⟩],
          tid + 1, [], ⟨fun q => if q = p then c1 else fs0.read q, fs0.isDir⟩, false, true⟩ :
          State) (t1, Action.modified p false) =
        c5mid F fs0 p (tid + 1) t1 c1 := by
      unfold step fireDue c5mid
      simp only [List.length_cons, List.length_nil, List.find?, fireDueFuel, hdec]
      unfold onModified scheduleDebouncedChange
      simp [hT, hI1, hW, lookupA, updA, addS, delS]
    rw [hme]
    unfold run
    rw [List.foldl_cons, ew, List.foldl_cons, em]
    have ihr := ih (tid + 1) t1 c1 hch2
    unfold run at ihr
    rw [ihr]
    rw [List.getLastD_cons, List.length_cons]
    have harg : tid + (rest.length + 1) = tid + 1 + rest.length := by omega
    rw [harg]

/-- Claim C5, the committed burst: when the quiet period elapses, the single
surviving timer commits once, diffing the cached content (from before the
first write) against the on-disk content after the last write; equal contents
emit nothing. -/
theorem c5_flush (cfg : Config) (F : List (String × String)) (fs0 : FS) (p : String)
    (tid : ℕ) (tl : ℤ) (cl : String)
    (hT : isTransient p = false) (hI : shouldIgnore cfg fs0 p = false)
    (hW : shouldWatch cfg p = true)
    (hne : (lookupA F p).getD "" ≠ cl) :
    (flushAll cfg (c5mid F fs0 p tid tl cl)).emitted =
      [⟨cfg.relPath p, true, (lookupA F p).getD "", cl,
        generateDiff ((lookupA F p).getD "") cl (cfg.relPath p)⟩] := by
  have hI1 : shouldIgnore cfg ⟨fun q => if q = p then cl else fs0.read q, fs0.isDir⟩ p
      = false := by
    rw [shouldIgnore_read_irrel cfg _ fs0.read fs0.isDir p]
    exact hI
  unfold flushAll c5mid
  simp only [List.length_cons, List.length_nil, flushFuel]
  unfold runTask handleDebouncedChange
  simp [hT, hI1, hW, delS, eraseA, lookupA, emit, hne, flushFuel]

/-- Claim C5, counterexample to the claim as stated: two rapid modifications
that finally restore the original content yield ZERO observations (the commit
suppresses the no-op diff), not exactly one. -/
theorem C5_counterexample :
    (flushAll cfgT (run cfgT (initState [("f", "x\n")] fsE)
      (modEvents ("f") [(0, "y\n"), (50, "x\n")]))).emitted = [] := by
  decide

/-- Claim C5, amended: N rapid modifications of a tracked, non-ignored path,
each arriving strictly within the debounce window of its predecessor,
followed by silence, yield exactly one Observation — old content the cached
content from before the first write, new content the disk content after the
last write — PROVIDED the final content differs from the cached one;
otherwise (a burst that restores the original content) nothing is emitted.
Each new event cancels the previously scheduled task for the path. -/
theorem C5_burst_coalesced (cfg : Config) (F : List (String × String)) (fs0 : FS)
    (p : String) (t1 : ℤ) (c1 : String) (rest : List (ℤ × String))
    (hT : isTransient p = false) (hI : shouldIgnore cfg fs0 p = false)
    (hW : shouldWatch cfg p = true)
    (hchain : List.Chain' (fun x y => y.1 < x.1 + debounceDelay) ((t1, c1) :: rest))
    (hne : (lookupA F p).getD "" ≠ (rest.getLastD (t1, c1)).2) :
    (flushAll cfg (run cfg (initState F fs0) (modEvents p ((t1, c1) :: rest)))).emitted =
      [⟨cfg.relPath p, true, (lookupA F p).getD "", (rest.getLastD (t1, c1)).2,
        generateDiff ((lookupA F p).getD "") ((rest.getLastD (t1, c1)).2)
          (cfg.relPath p)⟩] := by
  have hme : modEvents p ((t1, c1) :: rest) =
      (t1, Action.write p c1) :: (t1, Action.modified p false) :: modEvents p rest := by
    simp [modEvents]
  have e0w : step cfg (initState F fs0) (t1, Action.write p c1) =
      ⟨F, [], [], [], [], 0, [], ⟨fun q => if q = p then c1 else fs0.read q, fs0.isDir⟩,
        false, true⟩ := by
    unfold step fireDue initState
    simp only [List.length_nil, fireDueFuel]
  have hI1 : shouldIgnore cfg ⟨fun q => if q = p then c1 else fs0.read q, fs0.isDir⟩ p
      = false := by
    rw [shouldIgnore_read_irrel cfg _ fs0.read fs0.isDir p]
    exact hI
  have e0m : step cfg (⟨F, [], [], [], [], 0, [],
        ⟨fun q => if q = p then c1 else fs0.read q, fs0.isDir⟩, false, true⟩ : State)
        (t1, Action.modified p false) = c5mid F fs0 p 0 t1 c1 := by
    unfold step fireDue c5mid
    simp only [List.length_nil, fireDueFuel]
    unfold onModified scheduleDebouncedChange
    simp [hT, hI1, hW, lookupA, updA, addS]
  rw [hme]
  unfold run
  rw [List.foldl_cons, e0w, List.foldl_cons, e0m]
  have haux := c5_run_aux cfg F fs0 p hT hI hW rest 0 t1 c1 hchain
  unfold run at haux
  simp only [Nat.zero_add] at haux
  rw [haux]
  exact c5_flush cfg F fs0 p rest.length (rest.getLastD (t1, c1)).1
    (rest.getLastD (t1, c1)).2 hT hI hW hne

/-- Claim C5, witness: a concrete two-write burst commits once with the
content from before the first write against the content after the last. -/
theorem C5_witness :
    (flushAll cfgT (run cfgT (initState [("f", "x\n")] fsE)
      (modEvents ("f") [(0, "y\n"), (50, "z\n")]))).emitted =
      [⟨"f", true, "x\n", "z\n", generateDiff ("x\n") ("z\n") ("f")⟩] :=
  C5_burst_coalesced cfgT [("f", "x\n")] fsE ("f") 0 ("y\n") [(50, "z\n")]
    (by decide) (by decide) (by decide)
    (by simp [List.chain'_cons, List.chain'_singleton, debounceDelay]) (by decide)

end Watch

namespace Watch

/-! ## Claim C1: the stripped diff body as a patch

_generate_diff strips the hunk-offset "@@" lines, so the body alone does not
determine the new content: two different new contents can give the same body
for the same old content; no patch-application function can exist. The
amended statement: the hunk data recorded in the unstripped diff — each
hunk's old-file range (the "@@" line) together with its '+' lines — applied
to the old lines reproduces the new lines exactly; proved below as
hunks_reconstruct and C1_amended. -/

/-- Claim C1, counterexample: there is no function that recovers new from old
and the stripped diff body, because the body is not injective in new: with
old = "x\\na\\nx\\n", the contents "a\\nx\\n" and "x\\na\\n" produce the
identical body "-x\\n" (the two bodies differ only in their stripped "@@"
lines, "@@ -1 +0,0 @@" versus "@@ -3 +2,0 @@"). -/
theorem C1_counterexample :
    ¬∃ applyBody : String → String → String,
      ∀ oldContent newContent : String,
        applyBody oldContent (generateDiff oldContent newContent ("f")) = newContent := by
  intro ⟨ap, h⟩
  have h1 := h ("x\na\nx\n") ("a\nx\n")
  have h2 := h ("x\na\nx\n") ("x\na\n")
  rw [show generateDiff ("x\na\nx\n") ("a\nx\n") ("f") =
      generateDiff ("x\na\nx\n") ("x\na\n") ("f") from by decide] at h1
  exact absurd (h1.symm.trans h2) (by decide)

/-! ### Slice arithmetic -/

theorem slice_eq_nil {l : List α} {i j : ℕ} (h : j ≤ i) : slice l i j = [] := by
  unfold slice
  rw [Nat.sub_eq_zero_of_le h]
  exact List.take_zero _

theorem slice_append {l : List α} {i j k : ℕ} (h1 : i ≤ j) (h2 : j ≤ k) :
    slice l i j ++ slice l j k = slice l i k := by
  unfold slice
  have hk : k - i = (j - i) + (k - j) := by omega
  rw [hk, List.take_add]
  congr 2
  rw [List.drop_drop]
  congr 1
  omega

theorem slice_zero_length (l : List α) : slice l 0 l.length = l := by
  unfold slice
  simp

theorem drop_eq_slice (l : List α) (i : ℕ) : l.drop i = slice l i l.length := by
  unfold slice
  rw [← List.length_drop]
  exact (List.take_length _).symm

theorem slice_cons {l : List α} {i j : ℕ} (d : α) (h1 : i < l.length) (h2 : i < j) :
    slice l i j = l.getD i d :: slice l (i + 1) j := by
  unfold slice
  rw [List.drop_eq_getElem_cons h1, List.getD_eq_getElem l d h1]
  have hj : j - i = (j - (i + 1)) + 1 := by omega
  rw [hj, List.take_succ_cons]

theorem slice_single {l : List α} {i : ℕ} (d : α) (h1 : i < l.length) :
    slice l i (i + 1) = [l.getD i d] := by
  rw [slice_cons d h1 (Nat.lt_succ_self i), slice_eq_nil (le_refl (i + 1))]

theorem slice_snoc {l : List α} {i j : ℕ} (d : α) (h1 : j < l.length) (h2 : i ≤ j) :
    slice l i (j + 1) = slice l i j ++ [l.getD j d] := by
  rw [← slice_append h2 (Nat.le_succ j), slice_single d h1]

end Watch

namespace Watch

/-! ### Invariants of find_longest_match -/

/-- A confirmed diagonal match: the k lines of a starting at i equal the k
lines of b starting at j. -/
def MatchEq (a b : List (List Char)) (i j k : ℕ) : Prop :=
  slice a i (i + k) = slice b j (j + k)

theorem matchEq_zero (a b : List (List Char)) (i j : ℕ) : MatchEq a b i j 0 := by
  unfold MatchEq
  rw [slice_eq_nil (by omega), slice_eq_nil (by omega)]

/-- Invariant of the j2len dictionary before processing row i: a nonzero
entry at j records a match of that length ending at (i, j+1) that starts
inside the [alo, blo) corner and stays left of bhi. -/
def J2Ok (a b : List (List Char)) (alo blo bhi i : ℕ) (f : ℕ → ℕ) : Prop :=
  ∀ j, f j ≠ 0 → alo + f j ≤ i ∧ blo + f j ≤ j + 1 ∧ j < bhi ∧ j < b.length ∧
    slice a (i - f j) i = slice b (j + 1 - f j) (j + 1)

/-- Invariant of the running best triple: in range, a genuine match, and the
initial (alo, blo, 0) triple when nothing has been found. -/
def BestOk (a b : List (List Char)) (alo ahi blo bhi : ℕ) (st : FlmBest) : Prop :=
  alo ≤ st.besti ∧ blo ≤ st.bestj ∧
  (st.bestsize ≠ 0 → st.besti + st.bestsize ≤ ahi ∧ st.bestj + st.bestsize ≤ bhi) ∧
  (st.bestsize = 0 → st.besti = alo ∧ st.bestj = blo) ∧
  MatchEq a b st.besti st.bestj st.bestsize

theorem b2j_mem (b : List (List Char)) (x : List Char) (j : ℕ) (hj : j ∈ b2j b x) :
    j < b.length ∧ b.getD j [] = x := by
  simp only [b2j] at hj
  split at hj
  · cases hj
  · rcases List.mem_filter.1 hj with ⟨hr, hd⟩
    exact ⟨List.mem_range.1 hr, of_decide_eq_true hd⟩

theorem flmInner_ok (a b : List (List Char)) (alo ahi blo bhi i : ℕ)
    (halo : alo ≤ i) (hi : i < ahi) (hia : i < a.length)
    (f : ℕ → ℕ) (hf : J2Ok a b alo blo bhi i f) :
    ∀ (js : List ℕ) (st : InnerSt),
      (∀ j ∈ js, j < b.length ∧ b.getD j [] = a.getD i []) →
      BestOk a b alo ahi blo bhi st.best →
      J2Ok a b alo blo bhi (i + 1) st.newj2len →
      BestOk a b alo ahi blo bhi (flmInner blo bhi i f js st).best ∧
        J2Ok a b alo blo bhi (i + 1) (flmInner blo bhi i f js st).newj2len := by
  intro js
  induction js with
  | nil =>
    intro st hjs hb hn
    exact ⟨hb, hn⟩
  | cons j js ih =>
    intro st hjs hb hn
    obtain ⟨hjb, hjeq⟩ := hjs j (List.mem_cons_self _ _)
    have hjs2 := fun x hx => hjs x (List.mem_cons_of_mem _ hx)
    unfold flmInner
    split
    · exact ih st hjs2 hb hn
    · split
      · exact ⟨hb, hn⟩
      · next hblo hbhi =>
        have hjlo : blo ≤ j := by omega
        have hjhi : j < bhi := by omega
        have hmain : ∀ m, m = (if j = 0 then 0 else f (j - 1)) + 1 →
            alo + m ≤ i + 1 ∧ blo + m ≤ j + 1 ∧
              slice a (i + 1 - m) (i + 1) = slice b (j + 1 - m) (j + 1) := by
          intro m hm
          by_cases hz : (if j = 0 then 0 else f (j - 1)) = 0
          · rw [hz] at hm
            subst hm
            refine ⟨by omega, by omega, ?_⟩
            have e1 : i + 1 - 1 = i := by omega
            have e2 : j + 1 - 1 = j := by omega
            rw [e1, e2]
            have ea : slice a i (i + 1) = [a.getD i []] := slice_single [] hia
            have eb : slice b j (j + 1) = [b.getD j []] := slice_single [] hjb
            rw [ea, eb, hjeq]
          · have hj0 : j ≠ 0 := by
              intro hx
              rw [if_pos hx] at hz
              exact hz rfl
            rw [if_neg hj0] at hm hz
            obtain ⟨hm1, hm2, hm3, hm4, hm5⟩ := hf (j - 1) hz
            have hjm : j - 1 + 1 = j := by omega
            rw [hjm] at hm2 hm5
            subst hm
            refine ⟨by omega, by omega, ?_⟩
            have e1 : i + 1 - (f (j - 1) + 1) = i - f (j - 1) := by omega
            have e2 : j + 1 - (f (j - 1) + 1) = j - f (j - 1) := by omega
            rw [e1, e2]
            have ea : slice a (i - f (j - 1)) (i + 1) =
                slice a (i - f (j - 1)) i ++ [a.getD i []] :=
              slice_snoc [] hia (by omega)
            have eb : slice b (j - f (j - 1)) (j + 1) =
                slice b (j - f (j - 1)) j ++ [b.getD j []] :=
              slice_snoc [] hjb (by omega)
            rw [ea, eb, hm5, hjeq]
        have hmain2 := hmain _ rfl
        set K := (if j = 0 then 0 else f (j - 1)) + 1 with hK
        have hm1 : alo + K ≤ i + 1 := hmain2.1
        have hm2 : blo + K ≤ j + 1 := hmain2.2.1
        apply ih
        · exact hjs2
        · -- the updated best triple
          dsimp only
          split
          · unfold BestOk
            dsimp only
            refine ⟨by omega, by omega, fun _ => ⟨by omega, by omega⟩,
              fun hx => absurd hx (by omega), ?_⟩
            unfold MatchEq
            have e1 : i + 1 - K + K = i + 1 := by omega
            have e2 : j + 1 - K + K = j + 1 := by omega
            rw [e1, e2]
            exact hmain2.2.2
          · exact hb
        · -- the updated newj2len
          intro j2 hj2
          dsimp only at hj2 ⊢
          by_cases hjj : j2 = j
          · subst hjj
            rw [if_pos rfl] at hj2 ⊢
            exact ⟨hmain2.1, hmain2.2.1, hjhi, hjb, hmain2.2.2⟩
          · rw [if_neg hjj] at hj2 ⊢
            exact hn j2 hj2

end Watch

namespace Watch

theorem flmLoop_ok (a b : List (List Char)) (b2jf : List Char → List ℕ)
    (alo ahi blo bhi : ℕ)
    (hb2j : ∀ x j, j ∈ b2jf x → j < b.length ∧ b.getD j [] = x)
    (hla : ahi ≤ a.length) :
    ∀ (cnt cur : ℕ) (f : ℕ → ℕ) (best : FlmBest),
      alo ≤ cur → cur + cnt ≤ ahi →
      J2Ok a b alo blo bhi cur f →
      BestOk a b alo ahi blo bhi best →
      BestOk a b alo ahi blo bhi
        (flmLoop a b2jf blo bhi (List.range' cur cnt) (f, best)).2 := by
  intro cnt
  induction cnt with
  | zero =>
    intro cur f best h1 h2 hf hb
    simpa [flmLoop] using hb
  | succ n ih =>
    intro cur f best h1 h2 hf hb
    rw [List.range'_succ]
    unfold flmLoop
    have hinner := flmInner_ok a b alo ahi blo bhi cur h1 (by omega) (by omega) f hf
      (b2jf (a.getD cur [])) ⟨fun _ => 0, best⟩ (fun j hj => hb2j _ j hj) hb
      (fun j hj => absurd rfl hj)
    exact ih (cur + 1) _ _ (by omega) (by omega) hinner.2 hinner.1

theorem extendBackLoop_ok (a b : List (List Char)) (alo ahi blo bhi : ℕ)
    (hla : ahi ≤ a.length) (hlb : bhi ≤ b.length) :
    ∀ (fuel : ℕ) (st : FlmBest), BestOk a b alo ahi blo bhi st →
      BestOk a b alo ahi blo bhi (extendBackLoop a b alo blo fuel st) := by
  intro fuel
  induction fuel with
  | zero => intro st h; exact h
  | succ n ih =>
    intro st h
    unfold extendBackLoop
    split
    · next hcond =>
      obtain ⟨hbi, hbj, heq⟩ := hcond
      obtain ⟨h1, h2, h3, h4, h5⟩ := h
      by_cases hsz : st.bestsize = 0
      · rw [(h4 hsz).1] at hbi
        exact absurd hbi (lt_irrefl _)
      · obtain ⟨hup1, hup2⟩ := h3 hsz
        apply ih
        unfold BestOk
        dsimp only
        have hbia : st.besti - 1 < a.length := by omega
        have hbjb : st.bestj - 1 < b.length := by omega
        refine ⟨by omega, by omega, fun _ => ⟨by omega, by omega⟩,
          fun hx => absurd hx (Nat.succ_ne_zero _), ?_⟩
        unfold MatchEq at h5 ⊢
        have e1 : st.besti - 1 + (st.bestsize + 1) = st.besti + st.bestsize := by omega
        have e2 : st.bestj - 1 + (st.bestsize + 1) = st.bestj + st.bestsize := by omega
        rw [e1, e2]
        have ea : slice a (st.besti - 1) (st.besti + st.bestsize) =
            a.getD (st.besti - 1) [] :: slice a (st.besti - 1 + 1) (st.besti + st.bestsize) :=
          slice_cons [] hbia (by omega)
        have eb : slice b (st.bestj - 1) (st.bestj + st.bestsize) =
            b.getD (st.bestj - 1) [] :: slice b (st.bestj - 1 + 1) (st.bestj + st.bestsize) :=
          slice_cons [] hbjb (by omega)
        have e3 : st.besti - 1 + 1 = st.besti := by omega
        have e4 : st.bestj - 1 + 1 = st.bestj := by omega
        rw [ea, eb, e3, e4, heq, h5]
    · exact h

theorem extendFwdLoop_ok (a b : List (List Char)) (alo ahi blo bhi : ℕ)
    (hla : ahi ≤ a.length) (hlb : bhi ≤ b.length) :
    ∀ (fuel : ℕ) (st : FlmBest), BestOk a b alo ahi blo bhi st →
      BestOk a b alo ahi blo bhi (extendFwdLoop a b ahi bhi fuel st) := by
  intro fuel
  induction fuel with
  | zero => intro st h; exact h
  | succ n ih =>
    intro st h
    unfold extendFwdLoop
    split
    · next hcond =>
      obtain ⟨hbi, hbj, heq⟩ := hcond
      obtain ⟨h1, h2, h3, h4, h5⟩ := h
      apply ih
      unfold BestOk
      dsimp only
      have hbia : st.besti + st.bestsize < a.length := by omega
      have hbjb : st.bestj + st.bestsize < b.length := by omega
      refine ⟨h1, h2, fun _ => ⟨by omega, by omega⟩,
        fun hx => absurd hx (Nat.succ_ne_zero _), ?_⟩
      unfold MatchEq at h5 ⊢
      have e1 : st.besti + (st.bestsize + 1) = st.besti + st.bestsize + 1 := by omega
      have e2 : st.bestj + (st.bestsize + 1) = st.bestj + st.bestsize + 1 := by omega
      rw [e1, e2, slice_snoc [] hbia (by omega), slice_snoc [] hbjb (by omega), heq, h5]
    · exact h

/-- The specification of find_longest_match: the returned triple lies inside
the requested corner and is a genuine match. -/
theorem findLongestMatch_ok (a b : List (List Char)) (alo ahi blo bhi : ℕ)
    (h1 : alo ≤ ahi) (hla : ahi ≤ a.length) (hlb : bhi ≤ b.length) :
    BestOk a b alo ahi blo bhi (findLongestMatch a b alo ahi blo bhi) := by
  unfold findLongestMatch
  apply extendFwdLoop_ok a b alo ahi blo bhi hla hlb
  apply extendBackLoop_ok a b alo ahi blo bhi hla hlb
  apply flmLoop_ok a b (b2j b) alo ahi blo bhi (fun x j hj => b2j_mem b x j hj) hla
    (ahi - alo) alo (fun _ => 0) ⟨alo, blo, 0⟩ (le_refl alo) (by omega)
    (fun j hj => absurd rfl hj)
  exact ⟨le_refl _, le_refl _, fun hx => absurd rfl hx, fun _ => ⟨rfl, rfl⟩,
    matchEq_zero a b alo blo⟩

end Watch

namespace Watch

/-! ### Chains of matching blocks -/

/-- The blocks are ordered, non-overlapping genuine matches starting at or
after (i, j) and ending at or before (hi, hj). -/
def ChainLe (a b : List (List Char)) : ℕ → ℕ → List (ℕ × ℕ × ℕ) → ℕ → ℕ → Prop
  | i, j, [], hi, hj => i ≤ hi ∧ j ≤ hj
  | i, j, (ai, bj, k) :: rest, hi, hj =>
    i ≤ ai ∧ j ≤ bj ∧ MatchEq a b ai bj k ∧ ChainLe a b (ai + k) (bj + k) rest hi hj

theorem chainLe_mono (a b : List (List Char)) :
    ∀ (blocks : List (ℕ × ℕ × ℕ)) (i j i2 j2 hi hj : ℕ),
      ChainLe a b i j blocks hi hj → i2 ≤ i → j2 ≤ j → ChainLe a b i2 j2 blocks hi hj := by
  intro blocks
  cases blocks with
  | nil =>
    intro i j i2 j2 hi hj h h1 h2
    have h0 : i ≤ hi ∧ j ≤ hj := h
    exact ⟨by omega, by omega⟩
  | cons hd rest =>
    obtain ⟨ai, bj, k⟩ := hd
    intro i j i2 j2 hi hj h h1 h2
    obtain ⟨ha, hb, hm, hc⟩ := h
    exact ⟨by omega, by omega, hm, hc⟩

theorem chainLe_append (a b : List (List Char)) :
    ∀ (xs ys : List (ℕ × ℕ × ℕ)) (i j p q hi hj : ℕ),
      ChainLe a b i j xs p q → ChainLe a b p q ys hi hj →
      ChainLe a b i j (xs ++ ys) hi hj := by
  intro xs
  induction xs with
  | nil =>
    intro ys i j p q hi hj h1 h2
    exact chainLe_mono a b ys p q i j hi hj h2 h1.1 h1.2
  | cons hd rest ih =>
    obtain ⟨ai, bj, k⟩ := hd
    intro ys i j p q hi hj h1 h2
    obtain ⟨ha, hb, hm, hc⟩ := h1
    exact ⟨ha, hb, hm, ih ys _ _ p q hi hj hc h2⟩

theorem matchingBlocksFuel_chain (a b : List (List Char)) :
    ∀ (fuel alo ahi blo bhi : ℕ),
      alo ≤ ahi → blo ≤ bhi → ahi ≤ a.length → bhi ≤ b.length →
      ChainLe a b alo blo (matchingBlocksFuel a b fuel alo ahi blo bhi) ahi bhi := by
  intro fuel
  induction fuel with
  | zero =>
    intro alo ahi blo bhi h1 h2 h3 h4
    exact ⟨h1, h2⟩
  | succ n ih =>
    intro alo ahi blo bhi h1 h2 h3 h4
    have hspec := findLongestMatch_ok a b alo ahi blo bhi h1 h3 h4
    obtain ⟨hs1, hs2, hs3, hs4, hs5⟩ := hspec
    simp only [matchingBlocksFuel]
    by_cases hk : (findLongestMatch a b alo ahi blo bhi).bestsize = 0
    · rw [if_pos hk]
      exact ⟨h1, h2⟩
    · rw [if_neg hk]
      obtain ⟨hb1, hb2⟩ := hs3 hk
      apply chainLe_append a b _ _ alo blo
        ((findLongestMatch a b alo ahi blo bhi).besti +
          (findLongestMatch a b alo ahi blo bhi).bestsize)
        ((findLongestMatch a b alo ahi blo bhi).bestj +
          (findLongestMatch a b alo ahi blo bhi).bestsize)
      · apply chainLe_append a b _ _ alo blo
          (findLongestMatch a b alo ahi blo bhi).besti
          (findLongestMatch a b alo ahi blo bhi).bestj
        · by_cases hcond : alo < (findLongestMatch a b alo ahi blo bhi).besti ∧
              blo < (findLongestMatch a b alo ahi blo bhi).bestj
          · rw [if_pos hcond]
            exact ih alo (findLongestMatch a b alo ahi blo bhi).besti blo
              (findLongestMatch a b alo ahi blo bhi).bestj (by omega) (by omega)
              (by omega) (by omega)
          · rw [if_neg hcond]
            exact ⟨hs1, hs2⟩
        · exact ⟨le_refl _, le_refl _, hs5, le_refl _, le_refl _⟩
      · by_cases hcond : (findLongestMatch a b alo ahi blo bhi).besti +
              (findLongestMatch a b alo ahi blo bhi).bestsize < ahi ∧
            (findLongestMatch a b alo ahi blo bhi).bestj +
              (findLongestMatch a b alo ahi blo bhi).bestsize < bhi
        · rw [if_pos hcond]
          exact ih ((findLongestMatch a b alo ahi blo bhi).besti +
              (findLongestMatch a b alo ahi blo bhi).bestsize) ahi
            ((findLongestMatch a b alo ahi blo bhi).bestj +
              (findLongestMatch a b alo ahi blo bhi).bestsize) bhi
            (by omega) (by omega) h3 h4
        · rw [if_neg hcond]
          exact ⟨by omega, by omega⟩

theorem mergeLoop_chain (a b : List (List Char)) (hi hj : ℕ) :
    ∀ (blocks : List (ℕ × ℕ × ℕ)) (i0 j0 k0 s t : ℕ),
      s ≤ i0 → t ≤ j0 → MatchEq a b i0 j0 k0 →
      ChainLe a b (i0 + k0) (j0 + k0) blocks hi hj →
      ChainLe a b s t (mergeLoop (i0, j0, k0) blocks) hi hj := by
  intro blocks
  induction blocks with
  | nil =>
    intro i0 j0 k0 s t h1 h2 hm hc
    have hc0 : i0 + k0 ≤ hi ∧ j0 + k0 ≤ hj := hc
    unfold mergeLoop
    split
    · exact ⟨by omega, by omega, hm, hc⟩
    · exact ⟨by omega, by omega⟩
  | cons hd rest ih =>
    obtain ⟨i2, j2, k2⟩ := hd
    intro i0 j0 k0 s t h1 h2 hm hc
    obtain ⟨ha, hb, hm2, hc2⟩ := hc
    unfold mergeLoop
    split
    · next hadj =>
      obtain ⟨he1, he2⟩ := hadj
      apply ih i0 j0 (k0 + k2) s t h1 h2
      · unfold MatchEq at hm hm2 ⊢
        have e1 : i0 + (k0 + k2) = i2 + k2 := by omega
        have e2 : j0 + (k0 + k2) = j2 + k2 := by omega
        rw [e1, e2, ← slice_append (show i0 ≤ i2 by omega) (show i2 ≤ i2 + k2 by omega),
          ← slice_append (show j0 ≤ j2 by omega) (show j2 ≤ j2 + k2 by omega), hm2]
        congr 1
        rw [← he1, ← he2]
        exact hm
      · have e1 : i0 + (k0 + k2) = i2 + k2 := by omega
        have e2 : j0 + (k0 + k2) = j2 + k2 := by omega
        rw [e1, e2]
        exact hc2
    · split
      · exact ⟨h1, h2, hm, ih i2 j2 k2 _ _ ha hb hm2 hc2⟩
      · next hadj hk0 =>
        have hk0z : k0 = 0 := by
          by_contra hx
          exact hk0 hx
        apply ih i2 j2 k2 s t (by omega) (by omega) hm2 hc2

/-- Blocks with exact chain ends: the last block ends exactly at (ea, eb). -/
def ChainB (a b : List (List Char)) : ℕ → ℕ → List (ℕ × ℕ × ℕ) → ℕ → ℕ → Prop
  | i, j, [], ea, eb => i = ea ∧ j = eb
  | i, j, (ai, bj, k) :: rest, ea, eb =>
    i ≤ ai ∧ j ≤ bj ∧ MatchEq a b ai bj k ∧ ChainB a b (ai + k) (bj + k) rest ea eb

theorem chainLe_sentinel (a b : List (List Char)) :
    ∀ (xs : List (ℕ × ℕ × ℕ)) (i j la lb : ℕ),
      ChainLe a b i j xs la lb → ChainB a b i j (xs ++ [(la, lb, 0)]) la lb := by
  intro xs
  induction xs with
  | nil =>
    intro i j la lb h
    exact ⟨h.1, h.2, matchEq_zero a b la lb, by omega, by omega⟩
  | cons hd rest ih =>
    obtain ⟨ai, bj, k⟩ := hd
    intro i j la lb h
    obtain ⟨h1, h2, h3, h4⟩ := h
    exact ⟨h1, h2, h3, ih _ _ la lb h4⟩

/-- get_matching_blocks produces an exact chain of genuine matches from
(0, 0) to (len a, len b). -/
theorem getMatchingBlocks_chain (a b : List (List Char)) :
    ChainB a b 0 0 (getMatchingBlocks a b) a.length b.length := by
  unfold getMatchingBlocks
  apply chainLe_sentinel
  apply mergeLoop_chain a b a.length b.length _ 0 0 0 0 0 (le_refl 0) (le_refl 0)
    (matchEq_zero a b 0 0)
  simpa using matchingBlocksFuel_chain a b (a.length + b.length + 1) 0 a.length 0 b.length
    (Nat.zero_le _) (Nat.zero_le _) (le_refl _) (le_refl _)

end Watch

namespace Watch

/-! ### Chains of opcodes -/

/-- The opcodes tile the rectangle exactly: consecutive opcodes are adjacent
in both coordinates, equal opcodes are genuine matches of equal widths,
delete opcodes have empty b-range, insert opcodes have empty a-range, and the
chain runs from (i, j) to exactly (ea, eb). -/
def ChainO (a b : List (List Char)) : ℕ → ℕ → List Opcode → ℕ → ℕ → Prop
  | i, j, [], ea, eb => i = ea ∧ j = eb
  | i, j, c :: rest, ea, eb =>
    c.i1 = i ∧ c.j1 = j ∧ i ≤ c.i2 ∧ j ≤ c.j2 ∧
    (c.tag = .equal → slice a c.i1 c.i2 = slice b c.j1 c.j2 ∧ c.i2 - c.i1 = c.j2 - c.j1) ∧
    (c.tag = .delete → c.j1 = c.j2) ∧
    (c.tag = .insert → c.i1 = c.i2) ∧
    ChainO a b c.i2 c.j2 rest ea eb

theorem chainO_mono (a b : List (List Char)) :
    ∀ (codes : List Opcode) (i j ea eb : ℕ),
      ChainO a b i j codes ea eb → i ≤ ea ∧ j ≤ eb := by
  intro codes
  induction codes with
  | nil =>
    intro i j ea eb h
    have h0 : i = ea ∧ j = eb := h
    omega
  | cons c rest ih =>
    intro i j ea eb h
    obtain ⟨h1, h2, h3, h4, h5, h6, h7, h8⟩ := h
    have := ih c.i2 c.j2 ea eb h8
    omega

theorem chainO_append_of (a b : List (List Char)) :
    ∀ (xs ys : List Opcode) (i j p q ea eb : ℕ),
      ChainO a b i j xs p q → ChainO a b p q ys ea eb →
      ChainO a b i j (xs ++ ys) ea eb := by
  intro xs
  induction xs with
  | nil =>
    intro ys i j p q ea eb h1 h2
    have h0 : i = p ∧ j = q := h1
    rw [List.nil_append, h0.1, h0.2]
    exact h2
  | cons c rest ih =>
    intro ys i j p q ea eb h1 h2
    obtain ⟨g1, g2, g3, g4, g5, g6, g7, g8⟩ := h1
    exact ⟨g1, g2, g3, g4, g5, g6, g7, ih ys _ _ p q ea eb g8 h2⟩

theorem chainO_append_split (a b : List (List Char)) :
    ∀ (xs ys : List Opcode) (i j ea eb : ℕ),
      ChainO a b i j (xs ++ ys) ea eb →
      ∃ p q, ChainO a b i j xs p q ∧ ChainO a b p q ys ea eb := by
  intro xs
  induction xs with
  | nil =>
    intro ys i j ea eb h
    exact ⟨i, j, ⟨rfl, rfl⟩, h⟩
  | cons c rest ih =>
    intro ys i j ea eb h
    obtain ⟨g1, g2, g3, g4, g5, g6, g7, g8⟩ := h
    obtain ⟨p, q, hp, hq⟩ := ih ys c.i2 c.j2 ea eb g8
    exact ⟨p, q, ⟨g1, g2, g3, g4, g5, g6, g7, hp⟩, hq⟩

/-- One opcode followed by a chain, stated on plain record fields. -/
theorem chainO_cons_gap (a b : List (List Char)) (tg : Tag) (i i2 j j2 : ℕ)
    (rest : List Opcode) (ea eb : ℕ)
    (h3 : i ≤ i2) (h4 : j ≤ j2)
    (h5 : tg = .equal → slice a i i2 = slice b j j2 ∧ i2 - i = j2 - j)
    (h6 : tg = .delete → j = j2) (h7 : tg = .insert → i = i2)
    (h8 : ChainO a b i2 j2 rest ea eb) :
    ChainO a b i j (⟨tg, i, i2, j, j2⟩ :: rest) ea eb :=
  ⟨rfl, rfl, h3, h4, h5, h6, h7, h8⟩

/-- get_opcodes turns an exact chain of matching blocks into an exact chain
of opcodes. -/
theorem opcodesLoop_chainO (a b : List (List Char)) :
    ∀ (blocks : List (ℕ × ℕ × ℕ)) (i j ea eb : ℕ),
      ChainB a b i j blocks ea eb →
      ChainO a b i j (opcodesLoop i j blocks) ea eb := by
  intro blocks
  induction blocks with
  | nil =>
    intro i j ea eb h
    exact h
  | cons blk rest ih =>
    obtain ⟨ai, bj, k⟩ := blk
    intro i j ea eb h
    obtain ⟨h1, h2, h3, h4⟩ := h
    unfold opcodesLoop
    rw [List.append_assoc]
    have htail : ChainO a b (ai + k) (bj + k) (opcodesLoop (ai + k) (bj + k) rest) ea eb :=
      ih (ai + k) (bj + k) ea eb h4
    have heqpart : ChainO a b ai bj
        ((if k ≠ 0 then [(⟨.equal, ai, ai + k, bj, bj + k⟩ : Opcode)] else []) ++
          opcodesLoop (ai + k) (bj + k) rest) ea eb := by
      by_cases hk : k ≠ 0
      · rw [if_pos hk]
        refine chainO_append_of a b _ _ ai bj (ai + k) (bj + k) ea eb ?_ htail
        exact chainO_cons_gap a b .equal ai (ai + k) bj (bj + k) [] (ai + k) (bj + k)
          (by omega) (by omega) (fun _ => ⟨h3, by omega⟩)
          (fun hx => nomatch hx) (fun hx => nomatch hx) ⟨rfl, rfl⟩
      · rw [if_neg hk]
        rw [List.nil_append]
        have hk0 : k = 0 := by omega
        subst hk0
        simpa using htail
    by_cases hg1 : i < ai ∧ j < bj
    · rw [if_pos hg1]
      refine chainO_append_of a b _ _ i j ai bj ea eb ?_ heqpart
      exact chainO_cons_gap a b .replace i ai j bj _ ai bj (by omega) (by omega)
        (fun hx => nomatch hx) (fun hx => nomatch hx) (fun hx => nomatch hx) ⟨rfl, rfl⟩
    · rw [if_neg hg1]
      by_cases hg2 : i < ai
      · rw [if_pos hg2]
        refine chainO_append_of a b _ _ i j ai bj ea eb ?_ heqpart
        exact chainO_cons_gap a b .delete i ai j bj _ ai bj (by omega) (by omega)
          (fun hx => nomatch hx) (fun _ => by omega) (fun hx => nomatch hx) ⟨rfl, rfl⟩
      · rw [if_neg hg2]
        by_cases hg3 : j < bj
        · rw [if_pos hg3]
          refine chainO_append_of a b _ _ i j ai bj ea eb ?_ heqpart
          exact chainO_cons_gap a b .insert i ai j bj _ ai bj (by omega) (by omega)
            (fun hx => nomatch hx) (fun hx => nomatch hx) (fun _ => by omega) ⟨rfl, rfl⟩
        · rw [if_neg hg3]
          rw [List.nil_append]
          have e1 : ai = i := by omega
          have e2 : bj = j := by omega
          rw [← e1, ← e2]
          exact heqpart

/-- The opcodes of get_opcodes form an exact chain over the two line lists. -/
theorem getOpcodes_chainO (a b : List (List Char)) :
    ChainO a b 0 0 (getOpcodes a b) a.length b.length :=
  opcodesLoop_chainO a b (getMatchingBlocks a b) 0 0 a.length b.length
    (getMatchingBlocks_chain a b)

end Watch

namespace Watch

/-! ## Reconstructing b from the hunk data

With context n = 0, every group accumulated by groupLoop consists of
replace/delete/insert opcodes and zero-width equal markers, so its '+' lines
are exactly the b-lines spanned by the group, and the group's old-file range
[first.i1, last.i2) is exactly the a-lines it replaces. GrpChain captures
this shape of an accumulator group. -/

/-- The accumulator group of groupLoop with n = 0: a chain of opcodes from
(gi, gj) to (ci, cj) in which every equal opcode is zero-width and every
delete opcode has an empty b-range. -/
def GrpChain : ℕ → ℕ → List Opcode → ℕ → ℕ → Prop
  | gi, gj, [], ci, cj => gi = ci ∧ gj = cj
  | gi, gj, c :: rest, ci, cj =>
    c.i1 = gi ∧ c.j1 = gj ∧ gi ≤ c.i2 ∧ gj ≤ c.j2 ∧
    (c.tag = .equal → c.i1 = c.i2 ∧ c.j1 = c.j2) ∧
    (c.tag = .delete → c.j1 = c.j2) ∧
    GrpChain c.i2 c.j2 rest ci cj

theorem grpChain_mono : ∀ (g : List Opcode) (gi gj ci cj : ℕ),
    GrpChain gi gj g ci cj → gi ≤ ci ∧ gj ≤ cj := by
  intro g
  induction g with
  | nil =>
    intro gi gj ci cj h
    have h0 : gi = ci ∧ gj = cj := h
    omega
  | cons c rest ih =>
    intro gi gj ci cj h
    obtain ⟨h1, h2, h3, h4, h5, h6, h7⟩ := h
    have := ih c.i2 c.j2 ci cj h7
    omega

theorem grpChain_snoc : ∀ (g : List Opcode) (gi gj ci cj : ℕ) (c : Opcode),
    GrpChain gi gj g ci cj → c.i1 = ci → c.j1 = cj → ci ≤ c.i2 → cj ≤ c.j2 →
    (c.tag = .equal → c.i1 = c.i2 ∧ c.j1 = c.j2) →
    (c.tag = .delete → c.j1 = c.j2) →
    GrpChain gi gj (g ++ [c]) c.i2 c.j2 := by
  intro g
  induction g with
  | nil =>
    intro gi gj ci cj c h h1 h2 h3 h4 h5 h6
    have h0 : gi = ci ∧ gj = cj := h
    exact ⟨by omega, by omega, by omega, by omega, h5, h6, rfl, rfl⟩
  | cons d rest ih =>
    intro gi gj ci cj c h h1 h2 h3 h4 h5 h6
    obtain ⟨k1, k2, k3, k4, k5, k6, k7⟩ := h
    exact ⟨k1, k2, k3, k4, k5, k6, ih d.i2 d.j2 ci cj c k7 h1 h2 h3 h4 h5 h6⟩

theorem grpChain_headD (g : List Opcode) (gi gj ci cj : ℕ) (hne : g ≠ [])
    (h : GrpChain gi gj g ci cj) : (g.headD dummyOp).i1 = gi := by
  cases g with
  | nil => exact absurd rfl hne
  | cons c rest => exact h.1

theorem grpChain_lastD : ∀ (g : List Opcode) (gi gj ci cj : ℕ),
    g ≠ [] → GrpChain gi gj g ci cj → ∀ d : Opcode, (g.getLastD d).i2 = ci := by
  intro g
  induction g with
  | nil =>
    intro gi gj ci cj hne
    exact absurd rfl hne
  | cons c rest ih =>
    intro gi gj ci cj hne h d
    obtain ⟨k1, k2, k3, k4, k5, k6, k7⟩ := h
    cases rest with
    | nil =>
      have h0 : c.i2 = ci ∧ c.j2 = cj := k7
      simpa using h0.1
    | cons e rest2 =>
      have := ih c.i2 c.j2 ci cj (by simp) k7 c
      simpa using this

theorem grpChain_plus_join (b : List (List Char)) : ∀ (g : List Opcode) (gi gj ci cj : ℕ),
    GrpChain gi gj g ci cj → (g.map (plusLinesOf b)).join = slice b gj cj := by
  intro g
  induction g with
  | nil =>
    intro gi gj ci cj h
    have h0 : gi = ci ∧ gj = cj := h
    simp [slice_eq_nil (le_of_eq h0.2.symm)]
  | cons c rest ih =>
    intro gi gj ci cj h
    obtain ⟨h1, h2, h3, h4, h5, h6, h7⟩ := h
    have hrest := ih c.i2 c.j2 ci cj h7
    have hmono := grpChain_mono rest c.i2 c.j2 ci cj h7
    have hc : plusLinesOf b c = slice b c.j1 c.j2 := by
      unfold plusLinesOf
      by_cases ht : c.tag = .replace ∨ c.tag = .insert
      · rw [if_pos ht]
      · rw [if_neg ht]
        have hjj : c.j1 = c.j2 := by
          cases htag : c.tag with
          | replace => exact absurd (Or.inl htag) ht
          | insert => exact absurd (Or.inr htag) ht
          | equal => exact (h5 htag).2
          | delete => exact h6 htag
        exact (slice_eq_nil (le_of_eq hjj.symm)).symm
    show plusLinesOf b c ++ (rest.map (plusLinesOf b)).join = slice b gj cj
    rw [hc, hrest, h2]
    exact slice_append (h2 ▸ h4) hmono.2

theorem slice_drop_cat {l : List α} {i j : ℕ} (h : i ≤ j) :
    slice l i j ++ l.drop j = l.drop i := by
  unfold slice
  have hd : l.drop j = (l.drop i).drop (j - i) := by
    rw [List.drop_drop]
    congr 1
    omega
  rw [hd, List.take_append_drop]

/-- groupLoop with n = 0: applying the emitted hunks from position p
reproduces the already-matched b-prefix boundary and the rest of b, given
that the pending group is a valid accumulator chain and the remaining
opcodes chain to the ends. -/
theorem groupLoop_reconstruct (a b : List (List Char)) :
    ∀ (codes : List Opcode) (group : List Opcode) (gi gj ci cj p ea eb : ℕ),
      GrpChain gi gj group ci cj →
      ChainO a b ci cj codes ea eb →
      p ≤ gi →
      applyHunks a p ((groupLoop 0 group codes).map (hunkOfGroup b)) =
        slice a p gi ++ slice b gj eb ++ a.drop ea := by
  intro codes
  induction codes with
  | nil =>
    intro group gi gj ci cj p ea eb hg hc hp
    have hce : ci = ea ∧ cj = eb := hc
    unfold groupLoop
    by_cases hfil : group ≠ [] ∧ ¬(group.length = 1 ∧ (group.headD dummyOp).tag = .equal)
    · rw [if_pos hfil]
      have hmono := grpChain_mono group gi gj ci cj hg
      have hhead := grpChain_headD group gi gj ci cj hfil.1 hg
      have hlast := grpChain_lastD group gi gj ci cj hfil.1 hg dummyOp
      have hplus := grpChain_plus_join b group gi gj ci cj hg
      show slice a p (hunkOfGroup b group).lo ++ (hunkOfGroup b group).plus ++
          applyHunks a (hunkOfGroup b group).hi [] = _
      unfold hunkOfGroup
      dsimp only
      rw [hhead, hlast, hplus]
      show slice a p gi ++ slice b gj cj ++ a.drop ci = _
      rw [hce.1, hce.2]
    · rw [if_neg hfil]
      have hgc : gi = ci ∧ gj = cj := by
        rcases not_and_or.1 hfil with hx | hx
        · have hgnil : group = [] := by
            by_cases hz : group = []
            · exact hz
            · exact absurd hz hx
          subst hgnil
          exact hg
        · have hx2 : group.length = 1 ∧ (group.headD dummyOp).tag = .equal := not_not.1 hx
          match group, hx2.1 with
          | [c], _ =>
            obtain ⟨k1, k2, k3, k4, k5, k6, k7⟩ := hg
            have h0 : c.i2 = ci ∧ c.j2 = cj := k7
            have heqf := k5 hx2.2
            omega
      show a.drop p = slice a p gi ++ slice b gj eb ++ a.drop ea
      rw [slice_eq_nil (by omega : eb ≤ gj), List.append_nil]
      rw [show gi = ea by omega]
      exact (slice_drop_cat (by omega)).symm
  | cons c rest ih =>
    intro group gi gj ci cj p ea eb hg hc hp
    obtain ⟨hc1, hc2, hc3, hc4, hc5, hc6, hc7, hc8⟩ := hc
    have hmono := grpChain_mono group gi gj ci cj hg
    have hrmono := chainO_mono a b rest c.i2 c.j2 ea eb hc8
    unfold groupLoop
    by_cases hsplit : c.tag = .equal ∧ 0 + 0 < c.i2 - c.i1
    · rw [if_pos hsplit]
      have heqf := hc5 hsplit.1
      have hm1 : (⟨.equal, c.i1, min c.i2 (c.i1 + 0), c.j1, min c.j2 (c.j1 + 0)⟩ : Opcode) =
          ⟨.equal, ci, ci, cj, cj⟩ := by
        have e1 : min c.i2 (c.i1 + 0) = ci := by omega
        have e2 : min c.j2 (c.j1 + 0) = cj := by omega
        rw [e1, e2, hc1, hc2]
      have hm2 : (⟨.equal, max c.i1 (c.i2 - 0), c.i2, max c.j1 (c.j2 - 0), c.j2⟩ : Opcode) =
          ⟨.equal, c.i2, c.i2, c.j2, c.j2⟩ := by
        have e1 : max c.i1 (c.i2 - 0) = c.i2 := by omega
        have e2 : max c.j1 (c.j2 - 0) = c.j2 := by omega
        rw [e1, e2]
      rw [hm1, hm2]
      have hg' : GrpChain gi gj (group ++ [(⟨.equal, ci, ci, cj, cj⟩ : Opcode)]) ci cj :=
        grpChain_snoc group gi gj ci cj _ hg rfl rfl (le_refl _) (le_refl _)
          (fun _ => ⟨rfl, rfl⟩) (fun _ => rfl)
      have hne' : group ++ [(⟨.equal, ci, ci, cj, cj⟩ : Opcode)] ≠ [] := by simp
      have hhead := grpChain_headD _ gi gj ci cj hne' hg'
      have hlast := grpChain_lastD _ gi gj ci cj hne' hg' dummyOp
      have hplus := grpChain_plus_join b _ gi gj ci cj hg'
      have hg2 : GrpChain c.i2 c.j2 [(⟨.equal, c.i2, c.i2, c.j2, c.j2⟩ : Opcode)] c.i2 c.j2 :=
        ⟨rfl, rfl, le_refl _, le_refl _, fun _ => ⟨rfl, rfl⟩, fun _ => rfl, rfl, rfl⟩
      have hih := ih [(⟨.equal, c.i2, c.i2, c.j2, c.j2⟩ : Opcode)] c.i2 c.j2 c.i2 c.j2 ci ea eb
        hg2 hc8 (by omega)
      show slice a p (hunkOfGroup b _).lo ++ (hunkOfGroup b _).plus ++
          applyHunks a (hunkOfGroup b _).hi _ = _
      simp only [hunkOfGroup]
      rw [hhead]
      rw [hlast]
      rw [hplus]
      rw [hih]
      have hcEq : slice a ci c.i2 = slice b cj c.j2 := by
        rw [← hc1, ← hc2]
        exact heqf.1
      rw [hcEq]
      rw [show slice b gj eb =
            slice b gj cj ++ (slice b cj c.j2 ++ slice b c.j2 eb) by
          rw [slice_append (by omega) hrmono.2, slice_append hmono.2 (by omega)]]
      simp [List.append_assoc]
    · rw [if_neg hsplit]
      have hg' : GrpChain gi gj (group ++ [c]) c.i2 c.j2 := by
        refine grpChain_snoc group gi gj ci cj c hg hc1 hc2 hc3 hc4 ?_ hc6
        intro htag
        have hw := hc5 htag
        have : ¬(0 + 0 < c.i2 - c.i1) := fun hx => hsplit ⟨htag, hx⟩
        constructor
        · omega
        · omega
      exact ih (group ++ [c]) gi gj c.i2 c.j2 p ea eb hg' hc8 hp

/-- truncFirst with n = 0 shrinks a leading equal opcode to nothing, moving
the chain start to its end and leaving an equal a/b prefix behind. -/
theorem truncFirst_chain (a b : List (List Char)) (codes : List Opcode)
    (hne : codes ≠ []) (hchain : ChainO a b 0 0 codes a.length b.length) :
    ∃ s t codes1, truncFirst 0 codes = codes1 ∧ codes1 ≠ [] ∧
      ChainO a b s t codes1 a.length b.length ∧ slice a 0 s = slice b 0 t := by
  obtain ⟨c0, rest, hcodes⟩ := List.exists_cons_of_ne_nil hne
  subst hcodes
  have hchain0 := hchain
  obtain ⟨k1, k2, k3, k4, k5, k6, k7, k8⟩ := hchain
  by_cases heq : c0.tag = .equal
  · refine ⟨c0.i2, c0.j2, (⟨.equal, c0.i2, c0.i2, c0.j2, c0.j2⟩ : Opcode) :: rest,
      ?_, by simp, ?_, ?_⟩
    · show (if c0.tag = .equal then
          (⟨.equal, max c0.i1 (c0.i2 - 0), c0.i2, max c0.j1 (c0.j2 - 0), c0.j2⟩ : Opcode)
        else c0) :: rest = _
      rw [if_pos heq]
      have e1 : max c0.i1 (c0.i2 - 0) = c0.i2 := by omega
      have e2 : max c0.j1 (c0.j2 - 0) = c0.j2 := by omega
      rw [e1, e2]
    · exact chainO_cons_gap a b .equal c0.i2 c0.i2 c0.j2 c0.j2 rest a.length b.length
        (le_refl _) (le_refl _)
        (fun _ => ⟨by rw [slice_eq_nil (le_refl _), slice_eq_nil (le_refl _)], by omega⟩)
        (fun hx => nomatch hx) (fun hx => nomatch hx) k8
    · have hsl := (k5 heq).1
      rw [k1, k2] at hsl
      exact hsl
  · refine ⟨0, 0, c0 :: rest, ?_, by simp, hchain0, rfl⟩
    show (if c0.tag = .equal then
        (⟨.equal, max c0.i1 (c0.i2 - 0), c0.i2, max c0.j1 (c0.j2 - 0), c0.j2⟩ : Opcode)
      else c0) :: rest = _
    rw [if_neg heq]

/-- truncLast with n = 0 shrinks a trailing equal opcode to nothing, moving
the chain end to its start and leaving an equal a/b suffix behind. -/
theorem truncLast_chain (a b : List (List Char)) (codes1 : List Opcode) (s t : ℕ)
    (hne1 : codes1 ≠ []) (hchain1 : ChainO a b s t codes1 a.length b.length) :
    ∃ ea2 eb2 codes2, truncLast 0 codes1 = codes2 ∧
      ChainO a b s t codes2 ea2 eb2 ∧
      slice a ea2 a.length = slice b eb2 b.length ∧ eb2 ≤ b.length := by
  have hdecomp := List.dropLast_append_getLast hne1
  have hsome : codes1.getLast? = some (codes1.getLast hne1) :=
    List.getLast?_eq_getLast codes1 hne1
  obtain ⟨m1, m2, hinit, hlastc⟩ :=
    chainO_append_split a b codes1.dropLast [codes1.getLast hne1] s t a.length b.length
      (by rw [hdecomp]; exact hchain1)
  obtain ⟨l1, l2, l3, l4, l5, l6, l7, l8⟩ := hlastc
  have hend : (codes1.getLast hne1).i2 = a.length ∧ (codes1.getLast hne1).j2 = b.length := l8
  by_cases heq : (codes1.getLast hne1).tag = .equal
  · refine ⟨m1, m2, codes1.dropLast ++ [(⟨.equal, m1, m1, m2, m2⟩ : Opcode)], ?_, ?_, ?_, ?_⟩
    · unfold truncLast
      rw [hsome]
      dsimp only
      rw [if_pos heq]
      have e1 : min (codes1.getLast hne1).i2 ((codes1.getLast hne1).i1 + 0) = m1 := by omega
      have e2 : min (codes1.getLast hne1).j2 ((codes1.getLast hne1).j1 + 0) = m2 := by omega
      rw [e1, e2, l1, l2]
    · exact chainO_append_of a b codes1.dropLast [(⟨.equal, m1, m1, m2, m2⟩ : Opcode)]
        s t m1 m2 m1 m2 hinit
        (chainO_cons_gap a b .equal m1 m1 m2 m2 [] m1 m2 (le_refl _) (le_refl _)
          (fun _ => ⟨by rw [slice_eq_nil (le_refl _), slice_eq_nil (le_refl _)], by omega⟩)
          (fun hx => nomatch hx) (fun hx => nomatch hx) ⟨rfl, rfl⟩)
    · have hsl := (l5 heq).1
      rw [l1, l2, hend.1, hend.2] at hsl
      exact hsl
    · omega
  · refine ⟨a.length, b.length, codes1, ?_, hchain1, ?_, le_refl _⟩
    · unfold truncLast
      rw [hsome]
      dsimp only
      rw [if_neg heq]
      exact hdecomp
    · rw [slice_eq_nil (le_refl _), slice_eq_nil (le_refl _)]

/-- Applying the hunk data of the zero-context diff of a against b (old-file
ranges from the "@@" lines, content from the '+' lines) to a reproduces b. -/
theorem hunks_reconstruct (a b : List (List Char)) :
    applyHunks a 0 (extractHunks a b 0) = b := by
  have hchain := getOpcodes_chainO a b
  unfold extractHunks getGroupedOpcodes
  dsimp only
  by_cases hnil : getOpcodes a b = []
  · rw [hnil] at hchain
    have h0 : (0 : ℕ) = a.length ∧ (0 : ℕ) = b.length := hchain
    have ha : a = [] := List.length_eq_zero.mp h0.1.symm
    have hb : b = [] := List.length_eq_zero.mp h0.2.symm
    subst ha
    subst hb
    rfl
  · rw [if_neg hnil]
    obtain ⟨s, t, codes1, hTF, hne1, hchain1, hpre⟩ :=
      truncFirst_chain a b (getOpcodes a b) hnil hchain
    obtain ⟨ea2, eb2, codes2, hTL, hchain2, hsuf, hbound⟩ :=
      truncLast_chain a b codes1 s t hne1 hchain1
    rw [hTF, hTL]
    have hrec := groupLoop_reconstruct a b codes2 [] s t s t 0 ea2 eb2
      ⟨rfl, rfl⟩ hchain2 (Nat.zero_le s)
    rw [hrec, hpre, drop_eq_slice a ea2, hsuf]
    have ht2 : t ≤ eb2 := (chainO_mono a b codes2 s t ea2 eb2 hchain2).2
    rw [slice_append (Nat.zero_le t) ht2, slice_append (Nat.zero_le eb2) hbound,
      slice_zero_length]

set_option maxHeartbeats 1600000 in
theorem splitLinesAux_join : ∀ (acc cs : List Char),
    (splitLinesAux acc cs).join = acc.reverse ++ cs := by
  intro acc cs
  induction acc, cs using splitLinesAux.induct with
  | case1 acc h =>
    rw [splitLinesAux.eq_1, if_pos h]
    have hn : acc = [] := by
      cases acc with
      | nil => rfl
      | cons x xs => simp at h
    subst hn
    rfl
  | case2 acc h =>
    rw [splitLinesAux.eq_1, if_neg h]
    simp
  | case3 acc cs ih =>
    rw [splitLinesAux.eq_2]
    show (acc.reverse ++ ['\r', '\n']) ++ (splitLinesAux [] cs).join = _
    rw [ih]
    simp
  | case4 acc c cs hside hbr ih =>
    rw [splitLinesAux.eq_3 acc c cs hside, if_pos hbr]
    show (acc.reverse ++ [c]) ++ (splitLinesAux [] cs).join = _
    rw [ih]
    simp
  | case5 acc c cs hside hbr ih =>
    rw [splitLinesAux.eq_3 acc c cs hside, if_neg hbr]
    rw [ih]
    simp

theorem splitLinesKeepEnds_join (cs : List Char) : (splitLinesKeepEnds cs).join = cs := by
  unfold splitLinesKeepEnds
  rw [splitLinesAux_join]
  simp

/-- Claim C1, amended: applying the hunk data of the diff of old against new
(the old-file line ranges recorded on the "@@" hunk-offset lines together
with the hunks' '+' content lines) to old's lines reproduces new exactly.
The hunk-offset lines are required: C1_counterexample shows the stripped
body alone does not determine new. -/
theorem C1_amended (old new : String) :
    String.mk ((applyHunks (splitLinesKeepEnds old.data) 0
      (extractHunks (splitLinesKeepEnds old.data) (splitLinesKeepEnds new.data) 0)).join) =
      new := by
  rw [hunks_reconstruct, splitLinesKeepEnds_join]

end Watch
